import Mathlib

set_option maxRecDepth 100000

/-!
Verification development for the anti-abuse challenge service:
the randomised bytecode VM (host-side reference `run` / inverse `encode`
from `vm-encoder.ts`, and the C `vm_run` template from `CSourceStrings`),
the bytecode generator (`BytecodeGen.Generate`), the challenge builder
(`createFullChallenge` in `api/challenge/route.ts`), the verify endpoint
(`api/challenge/verify/route.ts`) and the rate limiter
(`request-risk-assessor.ts`).

Byte buffers are `List Nat` whose elements are intended to lie below 256
(`Uint8Array` cells); JavaScript 32-bit results are modelled as `Nat`
values below `2^32` (the image of `>>> 0`), with the one signed read
(`readU32LE`, which is a `|` chain and hence an int32 in JS) modelled on
`Int` via `jsToInt32`.
-/

/-- Predicate: every element of the buffer is a byte (< 256). -/
def Bytes (l : List Nat) : Prop := ∀ b ∈ l, b < 256

/-- Uint8Array view of a JS `number[]`: every element truncated mod 256
(`new Uint8Array(arr)` semantics). -/
def u8 (l : List Nat) : List Nat := l.map (fun b => b % 256)

/-- Rotate left a 32-bit value, from `rotl32` in `bitwise.ts` (and the identical
C `rotl32`): `n &= 31; return ((value << n) | (value >>> (32 - n))) >>> 0`.
JS shift counts are taken mod 32, and `<<` wraps mod 2^32. -/
def rotl32 (v n : Nat) : Nat :=
  let m := n % 32
  ((v <<< m) % 4294967296) ||| ((v % 4294967296) >>> ((32 - m) % 32))

/-- Rotate right a 32-bit value, from `rotr32` in `bitwise.ts` / C `rotr32`. -/
def rotr32 (v n : Nat) : Nat :=
  let m := n % 32
  ((v % 4294967296) >>> m) ||| ((v <<< ((32 - m) % 32)) % 4294967296)

/-- Byte-swap a 32-bit value, from `swap32` in `bitwise.ts` / C `swap32`. -/
def swap32 (v : Nat) : Nat :=
  ((v &&& 0xff) <<< 24) ||| ((v &&& 0xff00) <<< 8) |||
    ((v &&& 0xff0000) >>> 8) ||| ((v &&& 0xff000000) >>> 24)

/-- Set or clear one bit of a 32-bit value, from `setBit` in `bitwise.ts` /
C `set_bit`.  The clear branch `value & ~(1 << bit)` is the 32-bit complement,
i.e. `&&&` with `0xffffffff ^^^ (1 <<< bit)`. -/
def setBit32 (v : Nat) (bit : Nat) (bOn : Bool) : Nat :=
  if bOn then v ||| (1 <<< bit) else v &&& (0xffffffff ^^^ (1 <<< bit))

/-- Little-endian read of four bytes, the unsigned (`>>> 0`) value of
`readU32LE` in `encoding.ts` / C `read_u32le`. -/
def readLE4 (c : List Nat) : Nat :=
  c.getD 0 0 ||| (c.getD 1 0 <<< 8) ||| (c.getD 2 0 <<< 16) ||| (c.getD 3 0 <<< 24)

/-- Big-endian read of four bytes, the unsigned value of `readU32BE` in
`encoding.ts` / C `read_u32be`. -/
def readBE4 (c : List Nat) : Nat :=
  (c.getD 0 0 <<< 24) ||| (c.getD 1 0 <<< 16) ||| (c.getD 2 0 <<< 8) ||| c.getD 3 0

/-- Little-endian write of a 32-bit value as four bytes, from `writeU32LE` in
`encoding.ts` / C `write_u32le` (each stored byte is masked with `& 0xff`). -/
def writeLE4 (v : Nat) : List Nat :=
  [v &&& 255, (v >>> 8) &&& 255, (v >>> 16) &&& 255, (v >>> 24) &&& 255]

/-- Big-endian write of a 32-bit value as four bytes, from `writeU32BE` in
`encoding.ts` / C `write_u32be`. -/
def writeBE4 (v : Nat) : List Nat :=
  [(v >>> 24) &&& 255, (v >>> 16) &&& 255, (v >>> 8) &&& 255, v &&& 255]

/-- Apply `g` to each aligned 4-byte group of the buffer, leaving the
(< 4 byte) tail untouched: the shape of every `for (k = 0; k + 4 <= len; k += 4)`
loop in `vm-encoder.ts` and in the C `vm_run` cases. -/
def chunk4 (g : List Nat → List Nat) : List Nat → List Nat
  | b0 :: b1 :: b2 :: b3 :: rest => g [b0, b1, b2, b3] ++ chunk4 g rest
  | l => l

/-- JS `ToInt32` of an unsigned value: the result of a bitwise `|` chain. -/
def jsToInt32 (n : Nat) : Int :=
  if n % 4294967296 < 2147483648 then ((n % 4294967296 : Nat) : Int)
  else ((n % 4294967296 : Nat) : Int) - 4294967296

/-- Signed little-endian read at an offset, exactly `readU32LE` from
`encoding.ts`: `bytes[o] | (bytes[o+1] << 8) | (bytes[o+2] << 16) | (bytes[o+3] << 24)`,
an int32 in JS (negative when byte 3 has its high bit set). -/
def readU32LEjs (l : List Nat) (off : Nat) : Int :=
  jsToInt32 (l.getD off 0 ||| (l.getD (off+1) 0 <<< 8) |||
    (l.getD (off+2) 0 <<< 16) ||| (l.getD (off+3) 0 <<< 24))

section WordLemmas

theorem land255_eq_mod (x : Nat) : x &&& 255 = x % 256 := by
  have := Nat.and_pow_two_sub_one_eq_mod x 8
  norm_num at this
  exact this

theorem lor_disjoint (a b i : Nat) (hb : b < 2^i) : 2^i * a ||| b = 2^i * a + b :=
  (Nat.mul_add_lt_is_or hb a).symm

theorem readLE4_eq (b0 b1 b2 b3 : Nat) (h0 : b0 < 256) (h1 : b1 < 256) (h2 : b2 < 256) :
    readLE4 [b0, b1, b2, b3] = b0 + 256 * b1 + 65536 * b2 + 16777216 * b3 := by
  unfold readLE4
  simp only [List.getD, List.getElem?_cons_zero, List.getElem?_cons_succ, Option.getD_some,
    Nat.shiftLeft_eq]
  have e1 : b0 ||| b1 * 2^8 = 2^8 * b1 + b0 := by
    rw [Nat.lor_comm, Nat.mul_comm b1 (2^8), lor_disjoint _ _ 8 h0]
  have l1 : 2^8 * b1 + b0 < 2^16 := by omega
  have e2 : (2^8 * b1 + b0) ||| b2 * 2^16 = 2^16 * b2 + (2^8 * b1 + b0) := by
    rw [Nat.lor_comm, Nat.mul_comm b2 (2^16), lor_disjoint _ _ 16 l1]
  have l2 : 2^16 * b2 + (2^8 * b1 + b0) < 2^24 := by omega
  have e3 : (2^16 * b2 + (2^8 * b1 + b0)) ||| b3 * 2^24 =
      2^24 * b3 + (2^16 * b2 + (2^8 * b1 + b0)) := by
    rw [Nat.lor_comm, Nat.mul_comm b3 (2^24), lor_disjoint _ _ 24 l2]
  calc b0 ||| b1 * 2^8 ||| b2 * 2^16 ||| b3 * 2^24
      = (2^8 * b1 + b0) ||| b2 * 2^16 ||| b3 * 2^24 := by rw [e1]
    _ = (2^16 * b2 + (2^8 * b1 + b0)) ||| b3 * 2^24 := by rw [e2]
    _ = 2^24 * b3 + (2^16 * b2 + (2^8 * b1 + b0)) := e3
    _ = b0 + 256 * b1 + 65536 * b2 + 16777216 * b3 := by ring

theorem readBE4_eq (b0 b1 b2 b3 : Nat) (h1 : b1 < 256) (h2 : b2 < 256) (h3 : b3 < 256) :
    readBE4 [b0, b1, b2, b3] = b3 + 256 * b2 + 65536 * b1 + 16777216 * b0 := by
  unfold readBE4
  simp only [List.getD, List.getElem?_cons_zero, List.getElem?_cons_succ, Option.getD_some,
    Nat.shiftLeft_eq]
  have hb1 : b1 * 2^16 < 2^24 := by omega
  have e1 : b0 * 2^24 ||| b1 * 2^16 = 2^24 * b0 + 2^16 * b1 := by
    rw [Nat.mul_comm b0 (2^24), lor_disjoint _ _ 24 hb1]
    ring
  have hb2 : b2 * 2^8 < 2^16 := by omega
  have e2 : (2^24 * b0 + 2^16 * b1) ||| b2 * 2^8 = 2^24 * b0 + 2^16 * b1 + 2^8 * b2 := by
    have hr : 2^24 * b0 + 2^16 * b1 = 2^16 * (2^8 * b0 + b1) := by ring
    have hb2' : b2 * 2^8 < 2^16 := hb2
    rw [hr, lor_disjoint _ _ 16 hb2']
    ring
  have e3 : (2^24 * b0 + 2^16 * b1 + 2^8 * b2) ||| b3 =
      2^24 * b0 + 2^16 * b1 + 2^8 * b2 + b3 := by
    have hr : 2^24 * b0 + 2^16 * b1 + 2^8 * b2 = 2^8 * (2^16 * b0 + 2^8 * b1 + b2) := by ring
    have hb3 : b3 < 2^8 := h3
    rw [hr, lor_disjoint _ _ 8 hb3]
  calc b0 * 2^24 ||| b1 * 2^16 ||| b2 * 2^8 ||| b3
      = (2^24 * b0 + 2^16 * b1) ||| b2 * 2^8 ||| b3 := by rw [e1]
    _ = (2^24 * b0 + 2^16 * b1 + 2^8 * b2) ||| b3 := by rw [e2]
    _ = 2^24 * b0 + 2^16 * b1 + 2^8 * b2 + b3 := e3
    _ = b3 + 256 * b2 + 65536 * b1 + 16777216 * b0 := by ring

theorem writeLE4_eq (v : Nat) :
    writeLE4 v = [v % 256, v / 256 % 256, v / 65536 % 256, v / 16777216 % 256] := by
  unfold writeLE4
  rw [land255_eq_mod, land255_eq_mod, land255_eq_mod, land255_eq_mod,
    Nat.shiftRight_eq_div_pow, Nat.shiftRight_eq_div_pow, Nat.shiftRight_eq_div_pow]

theorem writeBE4_eq (v : Nat) :
    writeBE4 v = [v / 16777216 % 256, v / 65536 % 256, v / 256 % 256, v % 256] := by
  unfold writeBE4
  rw [land255_eq_mod, land255_eq_mod, land255_eq_mod, land255_eq_mod,
    Nat.shiftRight_eq_div_pow, Nat.shiftRight_eq_div_pow, Nat.shiftRight_eq_div_pow]

theorem readLE4_writeLE4 (v : Nat) (hv : v < 4294967296) :
    readLE4 (writeLE4 v) = v := by
  rw [writeLE4_eq, readLE4_eq _ _ _ _ (by omega) (by omega) (by omega)]
  omega

theorem readBE4_writeBE4 (v : Nat) (hv : v < 4294967296) :
    readBE4 (writeBE4 v) = v := by
  rw [writeBE4_eq, readBE4_eq _ _ _ _ (by omega) (by omega) (by omega)]
  omega

theorem writeLE4_readBE4 (b0 b1 b2 b3 : Nat)
    (h0 : b0 < 256) (h1 : b1 < 256) (h2 : b2 < 256) (h3 : b3 < 256) :
    writeLE4 (readBE4 [b0, b1, b2, b3]) = [b3, b2, b1, b0] := by
  rw [readBE4_eq _ _ _ _ h1 h2 h3, writeLE4_eq]
  have e0 : (b3 + 256 * b2 + 65536 * b1 + 16777216 * b0) % 256 = b3 := by omega
  have e1 : (b3 + 256 * b2 + 65536 * b1 + 16777216 * b0) / 256 % 256 = b2 := by omega
  have e2 : (b3 + 256 * b2 + 65536 * b1 + 16777216 * b0) / 65536 % 256 = b1 := by omega
  have e3 : (b3 + 256 * b2 + 65536 * b1 + 16777216 * b0) / 16777216 % 256 = b0 := by omega
  rw [e0, e1, e2, e3]

theorem writeBE4_readLE4 (b0 b1 b2 b3 : Nat)
    (h0 : b0 < 256) (h1 : b1 < 256) (h2 : b2 < 256) (h3 : b3 < 256) :
    writeBE4 (readLE4 [b0, b1, b2, b3]) = [b3, b2, b1, b0] := by
  rw [readLE4_eq _ _ _ _ h0 h1 h2, writeBE4_eq]
  have e0 : (b0 + 256 * b1 + 65536 * b2 + 16777216 * b3) % 256 = b0 := by omega
  have e1 : (b0 + 256 * b1 + 65536 * b2 + 16777216 * b3) / 256 % 256 = b1 := by omega
  have e2 : (b0 + 256 * b1 + 65536 * b2 + 16777216 * b3) / 65536 % 256 = b2 := by omega
  have e3 : (b0 + 256 * b1 + 65536 * b2 + 16777216 * b3) / 16777216 % 256 = b3 := by omega
  rw [e0, e1, e2, e3]

theorem writeLE4_readLE4 (b0 b1 b2 b3 : Nat)
    (h0 : b0 < 256) (h1 : b1 < 256) (h2 : b2 < 256) (h3 : b3 < 256) :
    writeLE4 (readLE4 [b0, b1, b2, b3]) = [b0, b1, b2, b3] := by
  rw [readLE4_eq _ _ _ _ h0 h1 h2, writeLE4_eq]
  have e0 : (b0 + 256 * b1 + 65536 * b2 + 16777216 * b3) % 256 = b0 := by omega
  have e1 : (b0 + 256 * b1 + 65536 * b2 + 16777216 * b3) / 256 % 256 = b1 := by omega
  have e2 : (b0 + 256 * b1 + 65536 * b2 + 16777216 * b3) / 65536 % 256 = b2 := by omega
  have e3 : (b0 + 256 * b1 + 65536 * b2 + 16777216 * b3) / 16777216 % 256 = b3 := by omega
  rw [e0, e1, e2, e3]

theorem readLE4_lt (c : List Nat) (h : ∀ b ∈ c, b < 256) (hlen : c.length = 4) :
    readLE4 c < 4294967296 := by
  match c, hlen with
  | [b0, b1, b2, b3], _ =>
    have h0 : b0 < 256 := h b0 (by simp)
    have h1 : b1 < 256 := h b1 (by simp)
    have h2 : b2 < 256 := h b2 (by simp)
    have h3 : b3 < 256 := h b3 (by simp)
    rw [readLE4_eq _ _ _ _ h0 h1 h2]
    omega

end WordLemmas

section RotSwapLemmas

theorem shiftRight_le_self (x n : Nat) : x >>> n ≤ x := by
  rw [Nat.shiftRight_eq_div_pow]
  exact Nat.div_le_self _ _

theorem rotl32_lt (v n : Nat) : rotl32 v n < 4294967296 := by
  unfold rotl32
  apply Nat.or_lt_two_pow (n := 32)
  · exact Nat.mod_lt _ (by norm_num)
  · exact lt_of_le_of_lt (shiftRight_le_self _ _) (Nat.mod_lt _ (by norm_num))

theorem rotr32_lt (v n : Nat) : rotr32 v n < 4294967296 := by
  unfold rotr32
  apply Nat.or_lt_two_pow (n := 32)
  · exact lt_of_le_of_lt (shiftRight_le_self _ _) (Nat.mod_lt _ (by norm_num))
  · exact Nat.mod_lt _ (by norm_num)

theorem rotl32_zero (v n : Nat) (hv : v < 4294967296) (hm : n % 32 = 0) : rotl32 v n = v := by
  simp [rotl32, hm, Nat.mod_eq_of_lt hv]

theorem rotr32_zero (v n : Nat) (hv : v < 4294967296) (hm : n % 32 = 0) : rotr32 v n = v := by
  simp [rotr32, hm, Nat.mod_eq_of_lt hv]

theorem rotl32_eq (v n : Nat) (hv : v < 4294967296) (hm : n % 32 ≠ 0) :
    rotl32 v n = 2 ^ (n % 32) * (v % 2 ^ (32 - n % 32)) + v / 2 ^ (32 - n % 32) := by
  unfold rotl32
  have hmlt : n % 32 < 32 := Nat.mod_lt _ (by norm_num)
  have h32 : (32 - n % 32) % 32 = 32 - n % 32 := Nat.mod_eq_of_lt (by omega)
  have hpow : 2 ^ (32 - n % 32) * 2 ^ (n % 32) = 4294967296 := by
    rw [← pow_add]
    norm_num [Nat.sub_add_cancel (le_of_lt hmlt)]
  simp only [h32, Nat.mod_eq_of_lt hv, Nat.shiftLeft_eq, Nat.shiftRight_eq_div_pow]
  rw [← hpow, Nat.mul_mod_mul_right, ← Nat.mul_comm (2 ^ (n % 32)) (v % 2 ^ (32 - n % 32))]
  apply lor_disjoint
  apply Nat.div_lt_of_lt_mul
  rw [Nat.mul_comm]
  rw [Nat.mul_comm] at hpow
  omega

theorem rotr32_eq (v n : Nat) (hv : v < 4294967296) (hm : n % 32 ≠ 0) :
    rotr32 v n = 2 ^ (32 - n % 32) * (v % 2 ^ (n % 32)) + v / 2 ^ (n % 32) := by
  unfold rotr32
  have hmlt : n % 32 < 32 := Nat.mod_lt _ (by norm_num)
  have h32 : (32 - n % 32) % 32 = 32 - n % 32 := Nat.mod_eq_of_lt (by omega)
  have hpow : 2 ^ (n % 32) * 2 ^ (32 - n % 32) = 4294967296 := by
    rw [← pow_add]
    norm_num [Nat.add_sub_cancel' (le_of_lt hmlt)]
  simp only [h32, Nat.mod_eq_of_lt hv, Nat.shiftLeft_eq, Nat.shiftRight_eq_div_pow]
  rw [← hpow, Nat.mul_mod_mul_right, ← Nat.mul_comm (2 ^ (32 - n % 32)) (v % 2 ^ (n % 32)),
    Nat.lor_comm]
  apply lor_disjoint
  apply Nat.div_lt_of_lt_mul
  rw [Nat.mul_comm]
  rw [Nat.mul_comm] at hpow
  omega

theorem rotr32_rotl32 (v n : Nat) (hv : v < 4294967296) :
    rotr32 (rotl32 v n) n = v := by
  by_cases hm : n % 32 = 0
  · rw [rotl32_zero v n hv hm, rotr32_zero v n hv hm]
  · have hmlt : n % 32 < 32 := Nat.mod_lt _ (by norm_num)
    set m := n % 32 with hmdef
    set a := 2 ^ m with hadef
    set b := 2 ^ (32 - m) with hbdef
    have hab : a * b = 4294967296 := by
      rw [hadef, hbdef, ← pow_add]
      norm_num [Nat.add_sub_cancel' (le_of_lt hmlt)]
    have ha : 0 < a := Nat.pos_pow_of_pos m (by norm_num)
    have hb : 0 < b := Nat.pos_pow_of_pos (32 - m) (by norm_num)
    have hdb : v / b < a := by
      apply Nat.div_lt_of_lt_mul
      rw [Nat.mul_comm] at hab
      omega
    have hw : rotl32 v n = a * (v % b) + v / b := rotl32_eq v n hv hm
    have hwlt : rotl32 v n < 4294967296 := rotl32_lt v n
    rw [rotr32_eq _ n hwlt hm, hw]
    have hmod : (a * (v % b) + v / b) % a = v / b := by
      rw [Nat.mul_add_mod]
      exact Nat.mod_eq_of_lt hdb
    have hdiv : (a * (v % b) + v / b) / a = v % b := by
      rw [Nat.mul_add_div ha]
      rw [Nat.div_eq_of_lt hdb, Nat.add_zero]
    rw [hmod, hdiv]
    exact Nat.div_add_mod v b

theorem rotl32_rotr32 (v n : Nat) (hv : v < 4294967296) :
    rotl32 (rotr32 v n) n = v := by
  by_cases hm : n % 32 = 0
  · rw [rotr32_zero v n hv hm, rotl32_zero v n hv hm]
  · have hmlt : n % 32 < 32 := Nat.mod_lt _ (by norm_num)
    set m := n % 32 with hmdef
    set a := 2 ^ m with hadef
    set b := 2 ^ (32 - m) with hbdef
    have hab : a * b = 4294967296 := by
      rw [hadef, hbdef, ← pow_add]
      norm_num [Nat.add_sub_cancel' (le_of_lt hmlt)]
    have ha : 0 < a := Nat.pos_pow_of_pos m (by norm_num)
    have hb : 0 < b := Nat.pos_pow_of_pos (32 - m) (by norm_num)
    have hdb : v / a < b := by
      apply Nat.div_lt_of_lt_mul
      omega
    have hw : rotr32 v n = b * (v % a) + v / a := rotr32_eq v n hv hm
    have hwlt : rotr32 v n < 4294967296 := rotr32_lt v n
    rw [rotl32_eq _ n hwlt hm, hw]
    have hmod : (b * (v % a) + v / a) % b = v / a := by
      rw [Nat.mul_add_mod]
      exact Nat.mod_eq_of_lt hdb
    have hdiv : (b * (v % a) + v / a) / b = v % a := by
      rw [Nat.mul_add_div hb]
      rw [Nat.div_eq_of_lt hdb, Nat.add_zero]
    rw [hmod, hdiv]
    exact Nat.div_add_mod v a

theorem land_byte_shift (v k : Nat) : v &&& (255 <<< k) = ((v >>> k) % 256) <<< k := by
  apply Nat.eq_of_testBit_eq
  intro i
  have h255 : (255 : Nat) = 2 ^ 8 - 1 := by norm_num
  rw [Nat.testBit_and, Nat.testBit_shiftLeft, Nat.testBit_shiftLeft]
  by_cases h : k ≤ i
  · have hge : decide (i ≥ k) = true := by simpa using h
    have hik : k + (i - k) = i := Nat.add_sub_cancel' h
    rw [hge, h255, Nat.testBit_two_pow_sub_one]
    have : (256 : Nat) = 2 ^ 8 := by norm_num
    rw [this, Nat.testBit_mod_two_pow, Nat.testBit_shiftRight, hik]
    cases hv : v.testBit i <;> cases hd : decide (i - k < 8) <;> simp [hv, hd]
  · have hge : decide (i ≥ k) = false := by simpa using h
    simp [hge]

end RotSwapLemmas

section SwapSetBitLemmas

theorem swap32_eq (v : Nat) :
    swap32 v = (v % 256) * 16777216 + (v / 256 % 256) * 65536 +
      (v / 65536 % 256) * 256 + v / 16777216 % 256 := by
  have h00 : (0xff00 : Nat) = 255 <<< 8 := by norm_num [Nat.shiftLeft_eq]
  have h0000 : (0xff0000 : Nat) = 255 <<< 16 := by norm_num [Nat.shiftLeft_eq]
  have h000000 : (0xff000000 : Nat) = 255 <<< 24 := by norm_num [Nat.shiftLeft_eq]
  unfold swap32
  rw [h00, h0000, h000000, land_byte_shift, land_byte_shift, land_byte_shift, land255_eq_mod]
  simp only [Nat.shiftLeft_eq, Nat.shiftRight_eq_div_pow]
  have e2 : v / 2^8 % 256 * 2^8 * 2^8 = v / 2^8 % 256 * 2^16 := by omega
  have e3 : v / 2^16 % 256 * 2^16 / 2^8 = v / 2^16 % 256 * 2^8 := by omega
  have e4 : v / 2^24 % 256 * 2^24 / 2^24 = v / 2^24 % 256 := by omega
  rw [e2, e3, e4]
  have ha : v % 256 < 256 := Nat.mod_lt _ (by norm_num)
  have hb : v / 2^8 % 256 < 256 := Nat.mod_lt _ (by norm_num)
  have hc : v / 2^16 % 256 < 256 := Nat.mod_lt _ (by norm_num)
  have hd : v / 2^24 % 256 < 256 := Nat.mod_lt _ (by norm_num)
  have hbb : v / 2^8 % 256 * 2^16 < 2^24 := by omega
  have f1 : v % 256 * 2^24 ||| v / 2^8 % 256 * 2^16 =
      2^24 * (v % 256) + 2^16 * (v / 2^8 % 256) := by
    rw [Nat.mul_comm (v % 256) (2^24), lor_disjoint _ _ 24 hbb]
    ring
  have hcc : v / 2^16 % 256 * 2^8 < 2^16 := by omega
  have f2 : (2^24 * (v % 256) + 2^16 * (v / 2^8 % 256)) ||| v / 2^16 % 256 * 2^8 =
      2^24 * (v % 256) + 2^16 * (v / 2^8 % 256) + 2^8 * (v / 2^16 % 256) := by
    have hr : 2^24 * (v % 256) + 2^16 * (v / 2^8 % 256) =
        2^16 * (2^8 * (v % 256) + v / 2^8 % 256) := by ring
    rw [hr, lor_disjoint _ _ 16 hcc]
    ring
  have f3 : (2^24 * (v % 256) + 2^16 * (v / 2^8 % 256) + 2^8 * (v / 2^16 % 256)) |||
      v / 2^24 % 256 =
      2^24 * (v % 256) + 2^16 * (v / 2^8 % 256) + 2^8 * (v / 2^16 % 256) + v / 2^24 % 256 := by
    have hr : 2^24 * (v % 256) + 2^16 * (v / 2^8 % 256) + 2^8 * (v / 2^16 % 256) =
        2^8 * (2^16 * (v % 256) + 2^8 * (v / 2^8 % 256) + v / 2^16 % 256) := by ring
    have hdd : v / 2^24 % 256 < 2^8 := hd
    rw [hr, lor_disjoint _ _ 8 hdd]
  calc v % 256 * 2^24 ||| v / 2^8 % 256 * 2^16 ||| v / 2^16 % 256 * 2^8 ||| v / 2^24 % 256
      = (2^24 * (v % 256) + 2^16 * (v / 2^8 % 256)) ||| v / 2^16 % 256 * 2^8 |||
          v / 2^24 % 256 := by rw [f1]
    _ = (2^24 * (v % 256) + 2^16 * (v / 2^8 % 256) + 2^8 * (v / 2^16 % 256)) |||
          v / 2^24 % 256 := by rw [f2]
    _ = 2^24 * (v % 256) + 2^16 * (v / 2^8 % 256) + 2^8 * (v / 2^16 % 256) +
          v / 2^24 % 256 := f3
    _ = (v % 256) * 16777216 + (v / 256 % 256) * 65536 + (v / 65536 % 256) * 256 +
          v / 16777216 % 256 := by norm_num; ring

theorem swap32_lt (v : Nat) : swap32 v < 4294967296 := by
  rw [swap32_eq]
  have ha : v % 256 < 256 := Nat.mod_lt _ (by norm_num)
  have hb : v / 256 % 256 < 256 := Nat.mod_lt _ (by norm_num)
  have hc : v / 65536 % 256 < 256 := Nat.mod_lt _ (by norm_num)
  have hd : v / 16777216 % 256 < 256 := Nat.mod_lt _ (by norm_num)
  omega

theorem swap32_of_bytes (a b c d : Nat) (ha : a < 256) (hb : b < 256) (hc : c < 256)
    (hd : d < 256) :
    swap32 (a + 256 * b + 65536 * c + 16777216 * d) =
      a * 16777216 + b * 65536 + c * 256 + d := by
  rw [swap32_eq]
  have e0 : (a + 256 * b + 65536 * c + 16777216 * d) % 256 = a := by omega
  have e1 : (a + 256 * b + 65536 * c + 16777216 * d) / 256 % 256 = b := by omega
  have e2 : (a + 256 * b + 65536 * c + 16777216 * d) / 65536 % 256 = c := by omega
  have e3 : (a + 256 * b + 65536 * c + 16777216 * d) / 16777216 % 256 = d := by omega
  rw [e0, e1, e2, e3]

theorem swap32_swap32 (v : Nat) (hv : v < 4294967296) : swap32 (swap32 v) = v := by
  obtain ⟨a, b, c, d, ha, hb, hc, hd, hv'⟩ :
      ∃ a b c d, a < 256 ∧ b < 256 ∧ c < 256 ∧ d < 256 ∧
        v = a + 256 * b + 65536 * c + 16777216 * d :=
    ⟨v % 256, v / 256 % 256, v / 65536 % 256, v / 16777216 % 256,
      Nat.mod_lt _ (by norm_num), Nat.mod_lt _ (by norm_num), Nat.mod_lt _ (by norm_num),
      Nat.mod_lt _ (by norm_num), by omega⟩
  subst hv'
  rw [swap32_of_bytes a b c d ha hb hc hd]
  have hre : a * 16777216 + b * 65536 + c * 256 + d =
      d + 256 * c + 65536 * b + 16777216 * a := by ring
  rw [hre, swap32_of_bytes d c b a hd hc hb ha]
  ring

theorem setBit32_lt (v bit : Nat) (bOn : Bool) (hv : v < 4294967296) (hb : bit < 32) :
    setBit32 v bit bOn < 4294967296 := by
  unfold setBit32
  cases bOn
  · simp only [Bool.false_eq_true, if_false]
    exact lt_of_le_of_lt Nat.and_le_left hv
  · simp only [if_true]
    apply Nat.or_lt_two_pow (n := 32) hv
    rw [Nat.shiftLeft_eq, Nat.one_mul]
    exact Nat.pow_lt_pow_right (by norm_num) hb

end SwapSetBitLemmas

section Chunk4Lemmas

theorem chunk4_nil (g : List Nat → List Nat) : chunk4 g [] = [] := rfl

theorem chunk4_cons4 (g : List Nat → List Nat) (b0 b1 b2 b3 : Nat) (rest : List Nat) :
    chunk4 g (b0 :: b1 :: b2 :: b3 :: rest) = g [b0, b1, b2, b3] ++ chunk4 g rest := rfl

theorem exists_four_of_length (c : List Nat) (h : c.length = 4) :
    ∃ a0 a1 a2 a3, c = [a0, a1, a2, a3] := by
  match c, h with
  | [a0, a1, a2, a3], _ => exact ⟨a0, a1, a2, a3, rfl⟩

/-- Applying `g` after `f` chunk-wise undoes `f` when `g` inverts `f` on every
length-4 byte chunk. -/
theorem chunk4_inverse (f g : List Nat → List Nat)
    (hlen : ∀ c, c.length = 4 → (∀ b ∈ c, b < 256) → (f c).length = 4)
    (hinv : ∀ c, c.length = 4 → (∀ b ∈ c, b < 256) → g (f c) = c) :
    ∀ l, Bytes l → chunk4 g (chunk4 f l) = l
  | b0 :: b1 :: b2 :: b3 :: rest, hl => by
    have hc : ∀ b ∈ [b0, b1, b2, b3], b < 256 := by
      intro b hb
      apply hl
      simp only [List.mem_cons] at hb ⊢
      tauto
    have hrest : Bytes rest := by
      intro b hb
      apply hl
      simp [hb]
    obtain ⟨a0, a1, a2, a3, ha⟩ := exists_four_of_length _ (hlen [b0, b1, b2, b3] rfl hc)
    rw [chunk4_cons4, ha]
    simp only [List.cons_append, List.nil_append]
    rw [chunk4_cons4, ← ha, hinv [b0, b1, b2, b3] rfl hc,
      chunk4_inverse f g hlen hinv rest hrest]
    simp
  | [], _ => rfl
  | [b0], _ => rfl
  | [b0, b1], _ => rfl
  | [b0, b1, b2], _ => rfl

/-- Chunk-wise maps whose chunk function emits bytes preserve `Bytes`. -/
theorem chunk4_bytes (f : List Nat → List Nat)
    (hf : ∀ c, c.length = 4 → (∀ b ∈ c, b < 256) → ∀ b ∈ f c, b < 256) :
    ∀ l, Bytes l → Bytes (chunk4 f l)
  | b0 :: b1 :: b2 :: b3 :: rest, hl => by
    have hc : ∀ b ∈ [b0, b1, b2, b3], b < 256 := by
      intro b hb
      apply hl
      simp only [List.mem_cons] at hb ⊢
      tauto
    have hrest : Bytes rest := by
      intro b hb
      apply hl
      simp [hb]
    intro b hb
    rw [chunk4_cons4] at hb
    rcases List.mem_append.mp hb with h | h
    · exact hf [b0, b1, b2, b3] rfl hc b h
    · exact chunk4_bytes f hf rest hrest b h
  | [], _ => fun b hb => by cases hb
  | [b0], hl => hl
  | [b0, b1], hl => hl
  | [b0, b1, b2], hl => hl

theorem writeLE4_bytes (v : Nat) : ∀ b ∈ writeLE4 v, b < 256 := by
  rw [writeLE4_eq]
  intro b hb
  simp only [List.mem_cons, List.not_mem_nil, or_false] at hb
  rcases hb with rfl | rfl | rfl | rfl <;> exact Nat.mod_lt _ (by norm_num)

theorem writeBE4_bytes (v : Nat) : ∀ b ∈ writeBE4 v, b < 256 := by
  rw [writeBE4_eq]
  intro b hb
  simp only [List.mem_cons, List.not_mem_nil, or_false] at hb
  rcases hb with rfl | rfl | rfl | rfl <;> exact Nat.mod_lt _ (by norm_num)

theorem writeLE4_length (v : Nat) : (writeLE4 v).length = 4 := rfl

theorem writeBE4_length (v : Nat) : (writeBE4 v).length = 4 := rfl

end Chunk4Lemmas

/-- ASCII code of a lowercase hex digit: JS `b.toString(16)` digits
`0-9` (48..57) and `a-f` (97..102). -/
def hexDigitCode (n : Nat) : Nat := if n < 10 then 48 + n else 87 + n

/-- Hex encoding of a byte buffer as ASCII codes: `toHex` from `encoding.ts`
(`b.toString(16).padStart(2, "0")` per byte, two digits each since the cells
are `Uint8Array` bytes) followed by `TextEncoder.encode`. -/
def toHexBytes : List Nat → List Nat
  | [] => []
  | b :: rest => hexDigitCode (b % 256 / 16) :: hexDigitCode (b % 16) :: toHexBytes rest

/-- ASCII whitespace codes matched by the `\s` strip in `fromHex`
(the buffer contents are ASCII in every execution reaching this code). -/
def isWsCode (c : Nat) : Bool :=
  c == 32 || c == 9 || c == 10 || c == 11 || c == 12 || c == 13

/-- Value of one hex digit character, `none` for a non-hex character. -/
def hexVal (c : Nat) : Option Nat :=
  if 48 ≤ c ∧ c ≤ 57 then some (c - 48)
  else if 97 ≤ c ∧ c ≤ 102 then some (c - 87)
  else if 65 ≤ c ∧ c ≤ 70 then some (c - 55)
  else none

/-- Byte stored for one two-character slice, `parseInt(slice, 16)` semantics from
`fromHex` in `encoding.ts`: `"0x"`/`"0X"` strip to the empty string (NaN, throw);
a leading sign is consumed; parsing stops at the first invalid character (so a
single valid digit yields that digit); the `NaN` check throws (`none`); the
`Uint8Array` store truncates mod 256 (relevant for a negative parse). -/
def pairByte (c1 c2 : Nat) : Option Nat :=
  if c1 = 48 ∧ (c2 = 120 ∨ c2 = 88) then none
  else match hexVal c1 with
  | some a =>
    match hexVal c2 with
    | some b => some (16 * a + b)
    | none => some a
  | none =>
    if c1 = 45 then
      match hexVal c2 with
      | some b => some ((256 - b) % 256)
      | none => none
    else if c1 = 43 then hexVal c2
    else none

def fromHexPairs : List Nat → Option (List Nat)
  | [] => some []
  | c1 :: c2 :: rest =>
    match pairByte c1 c2 with
    | some b => (fromHexPairs rest).map (fun bs => b :: bs)
    | none => none
  | _ => none

/-- Hex decoding, `fromHex` from `encoding.ts`: strip whitespace, throw on odd
length (`none`), decode two characters per output byte.  Characters are the
byte values of the buffer (`TextDecoder` decode, exact on ASCII input). -/
def fromHexBytes (l : List Nat) : Option (List Nat) :=
  let clean := l.filter (fun c => ! isWsCode c)
  if clean.length % 2 = 1 then none else fromHexPairs clean

/-- One step of the CRC32 table construction (`poly 0xedb88320`, reflected),
from `getCrc32Table` in `checksum.ts` / C `crc32_init`. -/
def crc32Step (c : Nat) : Nat := if c % 2 = 1 then (c >>> 1) ^^^ 0xedb88320 else c >>> 1

/-- Entry `i` of the CRC32 table: eight step iterations. -/
def crc32Tab (i : Nat) : Nat :=
  crc32Step (crc32Step (crc32Step (crc32Step
    (crc32Step (crc32Step (crc32Step (crc32Step i)))))))

/-- CRC32 from `checksum.ts` / C `crc32` (identical table-driven algorithm). -/
def crc32 (l : List Nat) : Nat :=
  (l.foldl (fun crc b => (crc >>> 8) ^^^ crc32Tab ((crc ^^^ b) &&& 255)) 0xffffffff)
    ^^^ 0xffffffff

/-- Adler32 from `checksum.ts` / C `adler32` (mod 65521 running sums,
result `(b << 16) | a`, a u32). -/
def adler32 (l : List Nat) : Nat :=
  let p := l.foldl (fun ab b => ((ab.1 + b) % 65521, (ab.2 + (ab.1 + b) % 65521) % 65521))
    ((1 : Nat), (0 : Nat))
  ((p.2 <<< 16) ||| p.1) % 4294967296

/-- XOR checksum from `checksum.ts` / C `xor_checksum` (`sum & 0xff`). -/
def xorChecksum (l : List Nat) : Nat := (l.foldl (fun s b => s ^^^ b) 0) &&& 255

/-- Per-build bytecodes manifest (`BytecodesForEncoder` in `vm-encoder.ts`,
the parsed `bytecodes.json` arrays). -/
structure Manifest where
  vm : List Nat
  vm_inv : List Nat
  opcode_action : List Nat
deriving DecidableEq

/-- One VM operation (`EncoderOperation` / `ChallengeOperation`):
opcode byte plus key/params bytes. -/
structure EncOp where
  op : Nat
  params : List Nat
deriving DecidableEq

/-- Modelled from the spec: `applySbox` lives in `sbox.ts`, which is absent from
the sources (only its caller `vm-encoder.ts` imports it).  Spec §2/§4.5: the
S-box engine "holds `vm`, `vm_inv`; applies them to a buffer", semantics
`buf[i] = table[buf[i]]` for every i. -/
def applySbox (buf table : List Nat) : List Nat := buf.map (fun b => table.getD b 0)

/-- Cyclic-XOR body, `buf[i] ^= key[i % key.length]` with the `Uint8Array`
store truncation. -/
def xorKeyGo (key : List Nat) (i : Nat) : List Nat → List Nat
  | [] => []
  | b :: rest => (b ^^^ key.getD (i % key.length) 0) % 256 :: xorKeyGo key (i + 1) rest

/-- The `xorWithKey` helper of `vm-encoder.ts`: early return on empty key. -/
def xorWithKey (buf key : List Nat) : List Nat :=
  if key.length = 0 then buf else xorKeyGo key 0 buf

/-- Action 4: write CRC32 of all but the last four bytes, big-endian, into the
last four bytes (skipped when the buffer is shorter than four bytes). -/
def crcTail (buf : List Nat) : List Nat :=
  if 4 ≤ buf.length then
    buf.take (buf.length - 4) ++ writeBE4 (crc32 (buf.take (buf.length - 4)))
  else buf

/-- Action 5: Adler32 analogue of `crcTail`. -/
def adlerTail (buf : List Nat) : List Nat :=
  if 4 ≤ buf.length then
    buf.take (buf.length - 4) ++ writeBE4 (adler32 (buf.take (buf.length - 4)))
  else buf

/-- Action 6: last byte becomes the XOR of the preceding bytes. -/
def xorTail (buf : List Nat) : List Nat :=
  if 1 ≤ buf.length then
    buf.take (buf.length - 1) ++ [xorChecksum (buf.take (buf.length - 1))]
  else buf

/-- The forward action dispatch `applyForwardOp` of `vm-encoder.ts`.
`none` models a thrown error (action 18; invalid hex in action 8).
`vm`/`vm_inv`/`key` pass through `new Uint8Array(...)`, hence `u8`. -/
def applyForwardOp (idx : Nat) (buf : List Nat) (params : List Nat) (m : Manifest) :
    Option (List Nat) :=
  let vm := u8 m.vm
  let vmInv := u8 m.vm_inv
  let key := u8 params
  match idx with
  | 0 => some (applySbox buf vm)
  | 1 => some (applySbox buf vmInv)
  | 2 => some (xorWithKey buf key)
  | 3 => some (xorWithKey buf key)
  | 4 => some (crcTail buf)
  | 5 => some (adlerTail buf)
  | 6 => some (xorTail buf)
  | 7 => some (toHexBytes buf)
  | 8 => fromHexBytes buf
  | 9 => some (chunk4 (fun c => writeLE4 (readBE4 c)) buf)
  | 10 => some (chunk4 (fun c => writeBE4 (readLE4 c)) buf)
  | 11 => some (chunk4 (fun c => writeBE4 (readLE4 c)) buf)
  | 12 => some (chunk4 (fun c => writeLE4 (readBE4 c)) buf)
  | 13 => some (if 0 < key.length then
      chunk4 (fun c => writeLE4 (rotl32 (readLE4 c) (key.getD 0 0 &&& 31))) buf else buf)
  | 14 => some (if 0 < key.length then
      chunk4 (fun c => writeLE4 (rotr32 (readLE4 c) (key.getD 0 0 &&& 31))) buf else buf)
  | 15 => some (chunk4 (fun c => writeLE4 (swap32 (readLE4 c))) buf)
  | 16 => some buf
  | 17 => some (if 2 ≤ key.length then
      chunk4 (fun c => writeLE4 (setBit32 (readLE4 c) (key.getD 0 0 &&& 31)
        ((key.getD 1 0 &&& 1) != 0))) buf else buf)
  | 18 => none
  | _ => some buf

/-- The inverse action dispatch `applyInverseOp` of `vm-encoder.ts`.
Note the source: case 7 hex-ENCODES again (`toHex`), case 8 hex-DECODES again
(`fromHex`); case 17 sets the bit to `on === 0`. -/
def applyInverseOp (idx : Nat) (buf : List Nat) (params : List Nat) (m : Manifest) :
    Option (List Nat) :=
  let vm := u8 m.vm
  let vmInv := u8 m.vm_inv
  let key := u8 params
  match idx with
  | 0 => some (applySbox buf vmInv)
  | 1 => some (applySbox buf vm)
  | 2 => some (xorWithKey buf key)
  | 3 => some (xorWithKey buf key)
  | 4 => some (crcTail buf)
  | 5 => some (adlerTail buf)
  | 6 => some (xorTail buf)
  | 7 => some (toHexBytes buf)
  | 8 => fromHexBytes buf
  | 9 => some (chunk4 (fun c => writeLE4 (readBE4 c)) buf)
  | 10 => some (chunk4 (fun c => writeBE4 (readLE4 c)) buf)
  | 11 => some (chunk4 (fun c => writeBE4 (readLE4 c)) buf)
  | 12 => some (chunk4 (fun c => writeLE4 (readBE4 c)) buf)
  | 13 => some (if 0 < key.length then
      chunk4 (fun c => writeLE4 (rotr32 (readLE4 c) (key.getD 0 0 &&& 31))) buf else buf)
  | 14 => some (if 0 < key.length then
      chunk4 (fun c => writeLE4 (rotl32 (readLE4 c) (key.getD 0 0 &&& 31))) buf else buf)
  | 15 => some (chunk4 (fun c => writeLE4 (swap32 (readLE4 c))) buf)
  | 16 => some buf
  | 17 => some (if 2 ≤ key.length then
      chunk4 (fun c => writeLE4 (setBit32 (readLE4 c) (key.getD 0 0 &&& 31)
        ((key.getD 1 0 &&& 1) == 0))) buf else buf)
  | 18 => none
  | _ => some buf

/-- Opcode lookup of `run`/`encode`: `op <= 255 ? opcodeAction[op] : 255`;
an out-of-range array access yields JS `undefined` (`none` here), which the
switch sends to the identity `default` branch. -/
def lookupIdx (m : Manifest) (op : Nat) : Option Nat :=
  if op ≤ 255 then m.opcode_action[op]? else some 255

/-- One iteration of the `run` loop: `if (idx === 255) continue` then forward
dispatch; identity on an `undefined` action index (the switch default). -/
def runStep (m : Manifest) (buf : List Nat) (o : EncOp) : Option (List Nat) :=
  match lookupIdx m o.op with
  | some idx => if idx = 255 then some buf else applyForwardOp idx buf o.params m
  | none => some buf

/-- One iteration of the `encode` loop (inverse dispatch). -/
def encodeStep (m : Manifest) (buf : List Nat) (o : EncOp) : Option (List Nat) :=
  match lookupIdx m o.op with
  | some idx => if idx = 255 then some buf else applyInverseOp idx buf o.params m
  | none => some buf

/-- The forward reference VM `run` from `vm-encoder.ts`: apply the operations
in order (the initial `new Uint8Array(buffer)` copy is the identity on
values). -/
def run (buffer : List Nat) (operations : List EncOp) (m : Manifest) : Option (List Nat) :=
  operations.foldlM (fun buf o => runStep m buf o) buffer

/-- The inverse encoder `encode` from `vm-encoder.ts`: apply the inverse of
each operation in reverse order (`for i = length-1 downto 0`). -/
def encode (plaintext : List Nat) (operations : List EncOp) (m : Manifest) :
    Option (List Nat) :=
  operations.reverse.foldlM (fun buf o => encodeStep m buf o) plaintext

section ByteLemmas

theorem u8_bytes (l : List Nat) : Bytes (u8 l) := by
  intro b hb
  obtain ⟨x, _, rfl⟩ := List.mem_map.mp hb
  exact Nat.mod_lt _ (by norm_num)

theorem u8_getD_lt (l : List Nat) (i : Nat) : (u8 l).getD i 0 < 256 := by
  by_cases h : i < (u8 l).length
  · rw [List.getD_eq_getElem _ _ h]
    exact u8_bytes l _ (List.getElem_mem h)
  · rw [List.getD_eq_default _ _ (by omega)]
    norm_num

theorem u8_eq_self : ∀ l : List Nat, (∀ x ∈ l, x < 256) → u8 l = l
  | [], _ => rfl
  | x :: rest, h => by
    have hx : x < 256 := h x (by simp)
    have hrest := u8_eq_self rest (fun y hy => h y (by simp [hy]))
    unfold u8 at hrest ⊢
    simp only [List.map_cons, Nat.mod_eq_of_lt hx, hrest]

theorem applySbox_bytes (buf t : List Nat) : Bytes (applySbox buf (u8 t)) := by
  intro b hb
  obtain ⟨x, _, rfl⟩ := List.mem_map.mp hb
  exact u8_getD_lt t x

theorem applySbox_applySbox (buf t1 t2 : List Nat) (hb : Bytes buf)
    (h : ∀ b, b < 256 → t2.getD (t1.getD b 0) 0 = b) :
    applySbox (applySbox buf t1) t2 = buf := by
  unfold applySbox
  rw [List.map_map]
  have : ∀ b ∈ buf, t2.getD (t1.getD b 0) 0 = id b := fun b hbm => h b (hb b hbm)
  calc buf.map (fun b => t2.getD (t1.getD b 0) 0) = buf.map id := List.map_congr_left this
    _ = buf := List.map_id buf

theorem xorKeyGo_bytes (key : List Nat) : ∀ (i : Nat) (buf : List Nat), Bytes (xorKeyGo key i buf)
  | _, [] => by intro b hb; cases hb
  | i, b :: rest => by
    intro y hy
    unfold xorKeyGo at hy
    rcases List.mem_cons.mp hy with rfl | h
    · exact Nat.mod_lt _ (by norm_num)
    · exact xorKeyGo_bytes key (i + 1) rest y h

theorem xorKeyGo_xorKeyGo (key : List Nat) (hk : Bytes key) :
    ∀ (buf : List Nat) (i : Nat), Bytes buf → xorKeyGo key i (xorKeyGo key i buf) = buf
  | [], _, _ => rfl
  | b :: rest, i, hb => by
    have hbb : b < 256 := hb b (by simp)
    have hkk : key.getD (i % key.length) 0 < 256 := by
      by_cases h : i % key.length < key.length
      · rw [List.getD_eq_getElem _ _ h]
        exact hk _ (List.getElem_mem h)
      · rw [List.getD_eq_default _ _ (by omega)]
        norm_num
    have hx : b ^^^ key.getD (i % key.length) 0 < 256 := by
      have := Nat.xor_lt_two_pow (n := 8) hbb hkk
      simpa using this
    show ((b ^^^ key.getD (i % key.length) 0) % 256 ^^^ key.getD (i % key.length) 0) % 256
        :: xorKeyGo key (i + 1) (xorKeyGo key (i + 1) rest) = b :: rest
    rw [Nat.mod_eq_of_lt hx, Nat.xor_assoc, Nat.xor_self, Nat.xor_zero,
      Nat.mod_eq_of_lt hbb,
      xorKeyGo_xorKeyGo key hk rest (i + 1) (fun y hy => hb y (by simp [hy]))]

theorem xorWithKey_bytes (buf key : List Nat) (hb : Bytes buf) : Bytes (xorWithKey buf key) := by
  unfold xorWithKey
  split
  · exact hb
  · exact xorKeyGo_bytes key 0 buf

theorem xorWithKey_xorWithKey (buf key : List Nat) (hb : Bytes buf) (hk : Bytes key) :
    xorWithKey (xorWithKey buf key) key = buf := by
  unfold xorWithKey
  split
  · rfl
  · exact xorKeyGo_xorKeyGo key hk buf 0 hb

end ByteLemmas

section ChunkInvolLemmas

/-- Word-wise LE read/transform/LE write chunks invert when the word functions
invert on 32-bit values. -/
theorem chunk4_word_inverse (f g : Nat → Nat)
    (hf : ∀ v, v < 4294967296 → f v < 4294967296)
    (hfg : ∀ v, v < 4294967296 → g (f v) = v) (l : List Nat) (hl : Bytes l) :
    chunk4 (fun c => writeLE4 (g (readLE4 c)))
      (chunk4 (fun c => writeLE4 (f (readLE4 c))) l) = l := by
  apply chunk4_inverse _ _ (fun c _ _ => writeLE4_length _) _ l hl
  intro c hc hcb
  obtain ⟨b0, b1, b2, b3, rfl⟩ := exists_four_of_length c hc
  have hv : readLE4 [b0, b1, b2, b3] < 4294967296 := readLE4_lt _ hcb rfl
  rw [readLE4_writeLE4 _ (hf _ hv), hfg _ hv,
    writeLE4_readLE4 b0 b1 b2 b3 (hcb b0 (by simp)) (hcb b1 (by simp)) (hcb b2 (by simp))
      (hcb b3 (by simp))]

/-- The BE-read/LE-write word pass (actions 9 and 12) is an involution. -/
theorem chunk4_bele_invol (l : List Nat) (hl : Bytes l) :
    chunk4 (fun c => writeLE4 (readBE4 c)) (chunk4 (fun c => writeLE4 (readBE4 c)) l) = l := by
  apply chunk4_inverse _ _ (fun c _ _ => writeLE4_length _) _ l hl
  intro c hc hcb
  obtain ⟨b0, b1, b2, b3, rfl⟩ := exists_four_of_length c hc
  have h0 : b0 < 256 := hcb b0 (by simp)
  have h1 : b1 < 256 := hcb b1 (by simp)
  have h2 : b2 < 256 := hcb b2 (by simp)
  have h3 : b3 < 256 := hcb b3 (by simp)
  rw [writeLE4_readBE4 b0 b1 b2 b3 h0 h1 h2 h3, writeLE4_readBE4 b3 b2 b1 b0 h3 h2 h1 h0]

/-- The LE-read/BE-write word pass (actions 10 and 11) is an involution. -/
theorem chunk4_lebe_invol (l : List Nat) (hl : Bytes l) :
    chunk4 (fun c => writeBE4 (readLE4 c)) (chunk4 (fun c => writeBE4 (readLE4 c)) l) = l := by
  apply chunk4_inverse _ _ (fun c _ _ => writeBE4_length _) _ l hl
  intro c hc hcb
  obtain ⟨b0, b1, b2, b3, rfl⟩ := exists_four_of_length c hc
  have h0 : b0 < 256 := hcb b0 (by simp)
  have h1 : b1 < 256 := hcb b1 (by simp)
  have h2 : b2 < 256 := hcb b2 (by simp)
  have h3 : b3 < 256 := hcb b3 (by simp)
  rw [writeBE4_readLE4 b0 b1 b2 b3 h0 h1 h2 h3, writeBE4_readLE4 b3 b2 b1 b0 h3 h2 h1 h0]

theorem chunk4_bele_bytes (l : List Nat) (hl : Bytes l) :
    Bytes (chunk4 (fun c => writeLE4 (readBE4 c)) l) :=
  chunk4_bytes _ (fun c _ _ => writeLE4_bytes _) l hl

/-- Rotate-left then rotate-right word passes cancel. -/
theorem chunk4_rotl_invol (r : Nat) (l : List Nat) (hl : Bytes l) :
    chunk4 (fun c => writeLE4 (rotr32 (readLE4 c) r))
      (chunk4 (fun c => writeLE4 (rotl32 (readLE4 c) r)) l) = l :=
  chunk4_word_inverse (fun v => rotl32 v r) (fun v => rotr32 v r)
    (fun v _ => rotl32_lt v r) (fun v hv => rotr32_rotl32 v r hv) l hl

/-- Rotate-right then rotate-left word passes cancel. -/
theorem chunk4_rotr_invol (r : Nat) (l : List Nat) (hl : Bytes l) :
    chunk4 (fun c => writeLE4 (rotl32 (readLE4 c) r))
      (chunk4 (fun c => writeLE4 (rotr32 (readLE4 c) r)) l) = l :=
  chunk4_word_inverse (fun v => rotr32 v r) (fun v => rotl32 v r)
    (fun v _ => rotr32_lt v r) (fun v hv => rotl32_rotr32 v r hv) l hl

/-- The byte-swap word pass is an involution. -/
theorem chunk4_swap_invol (l : List Nat) (hl : Bytes l) :
    chunk4 (fun c => writeLE4 (swap32 (readLE4 c)))
      (chunk4 (fun c => writeLE4 (swap32 (readLE4 c))) l) = l :=
  chunk4_word_inverse swap32 swap32 (fun v _ => swap32_lt v)
    (fun v hv => swap32_swap32 v hv) l hl

end ChunkInvolLemmas

instance bytesDecidable (l : List Nat) : Decidable (Bytes l) := by
  unfold Bytes
  infer_instance

/-- Well-formedness of the S-box pair: `vm` and `vm_inv` are 256-entry byte
tables that are mutually inverse permutations (`vm_inv[vm[i]] == i` and
`vm[vm_inv[i]] == i`). -/
def SboxInv (m : Manifest) : Prop :=
  m.vm.length = 256 ∧ m.vm_inv.length = 256 ∧
  (∀ x ∈ m.vm, x < 256) ∧ (∀ x ∈ m.vm_inv, x < 256) ∧
  (∀ b, b < 256 → m.vm_inv.getD (m.vm.getD b 0) 0 = b) ∧
  (∀ b, b < 256 → m.vm.getD (m.vm_inv.getD b 0) 0 = b)

instance (m : Manifest) : Decidable (SboxInv m) := by
  unfold SboxInv
  infer_instance

/-- Forward-then-inverse round trip for a single action index outside
{4,5,6,7,8,17,18}: the forward op succeeds, keeps the buffer bytes, and the
inverse op recovers the input. -/
theorem fwdInv (idx : Nat) (buf params : List Nat) (m : Manifest)
    (hm : SboxInv m) (hb : Bytes buf)
    (h4 : idx ≠ 4) (h5 : idx ≠ 5) (h6 : idx ≠ 6) (h7 : idx ≠ 7) (h8 : idx ≠ 8)
    (h17 : idx ≠ 17) (h18 : idx ≠ 18) :
    ∃ y, applyForwardOp idx buf params m = some y ∧ Bytes y ∧
      applyInverseOp idx y params m = some buf := by
  obtain ⟨hlv, hli, hbv, hbi, hvi, hiv⟩ := hm
  match idx with
  | 0 =>
    refine ⟨applySbox buf (u8 m.vm), rfl, applySbox_bytes buf m.vm, ?_⟩
    show some (applySbox (applySbox buf (u8 m.vm)) (u8 m.vm_inv)) = some buf
    rw [u8_eq_self m.vm hbv, u8_eq_self m.vm_inv hbi]
    rw [applySbox_applySbox buf m.vm m.vm_inv hb hvi]
  | 1 =>
    refine ⟨applySbox buf (u8 m.vm_inv), rfl, applySbox_bytes buf m.vm_inv, ?_⟩
    show some (applySbox (applySbox buf (u8 m.vm_inv)) (u8 m.vm)) = some buf
    rw [u8_eq_self m.vm hbv, u8_eq_self m.vm_inv hbi]
    rw [applySbox_applySbox buf m.vm_inv m.vm hb hiv]
  | 2 =>
    refine ⟨xorWithKey buf (u8 params), rfl, xorWithKey_bytes _ _ hb, ?_⟩
    show some (xorWithKey (xorWithKey buf (u8 params)) (u8 params)) = some buf
    rw [xorWithKey_xorWithKey buf (u8 params) hb (u8_bytes params)]
  | 3 =>
    refine ⟨xorWithKey buf (u8 params), rfl, xorWithKey_bytes _ _ hb, ?_⟩
    show some (xorWithKey (xorWithKey buf (u8 params)) (u8 params)) = some buf
    rw [xorWithKey_xorWithKey buf (u8 params) hb (u8_bytes params)]
  | 4 => exact absurd rfl h4
  | 5 => exact absurd rfl h5
  | 6 => exact absurd rfl h6
  | 7 => exact absurd rfl h7
  | 8 => exact absurd rfl h8
  | 9 =>
    refine ⟨chunk4 (fun c => writeLE4 (readBE4 c)) buf, rfl, chunk4_bele_bytes buf hb, ?_⟩
    show some (chunk4 (fun c => writeLE4 (readBE4 c))
      (chunk4 (fun c => writeLE4 (readBE4 c)) buf)) = some buf
    rw [chunk4_bele_invol buf hb]
  | 10 =>
    refine ⟨chunk4 (fun c => writeBE4 (readLE4 c)) buf, rfl,
      chunk4_bytes _ (fun c _ _ => writeBE4_bytes _) buf hb, ?_⟩
    show some (chunk4 (fun c => writeBE4 (readLE4 c))
      (chunk4 (fun c => writeBE4 (readLE4 c)) buf)) = some buf
    rw [chunk4_lebe_invol buf hb]
  | 11 =>
    refine ⟨chunk4 (fun c => writeBE4 (readLE4 c)) buf, rfl,
      chunk4_bytes _ (fun c _ _ => writeBE4_bytes _) buf hb, ?_⟩
    show some (chunk4 (fun c => writeBE4 (readLE4 c))
      (chunk4 (fun c => writeBE4 (readLE4 c)) buf)) = some buf
    rw [chunk4_lebe_invol buf hb]
  | 12 =>
    refine ⟨chunk4 (fun c => writeLE4 (readBE4 c)) buf, rfl, chunk4_bele_bytes buf hb, ?_⟩
    show some (chunk4 (fun c => writeLE4 (readBE4 c))
      (chunk4 (fun c => writeLE4 (readBE4 c)) buf)) = some buf
    rw [chunk4_bele_invol buf hb]
  | 13 =>
    by_cases hkl : 0 < (u8 params).length
    · refine ⟨chunk4 (fun c => writeLE4 (rotl32 (readLE4 c) ((u8 params).getD 0 0 &&& 31))) buf,
        by simp [applyForwardOp, hkl],
        chunk4_bytes _ (fun c _ _ => writeLE4_bytes _) buf hb, ?_⟩
      simp only [applyInverseOp, hkl, if_pos]
      rw [chunk4_rotl_invol ((u8 params).getD 0 0 &&& 31) buf hb]
    · refine ⟨buf, by simp [applyForwardOp, hkl], hb, by simp [applyInverseOp, hkl]⟩
  | 14 =>
    by_cases hkl : 0 < (u8 params).length
    · refine ⟨chunk4 (fun c => writeLE4 (rotr32 (readLE4 c) ((u8 params).getD 0 0 &&& 31))) buf,
        by simp [applyForwardOp, hkl],
        chunk4_bytes _ (fun c _ _ => writeLE4_bytes _) buf hb, ?_⟩
      simp only [applyInverseOp, hkl, if_pos]
      rw [chunk4_rotr_invol ((u8 params).getD 0 0 &&& 31) buf hb]
    · refine ⟨buf, by simp [applyForwardOp, hkl], hb, by simp [applyInverseOp, hkl]⟩
  | 15 =>
    refine ⟨chunk4 (fun c => writeLE4 (swap32 (readLE4 c))) buf, rfl,
      chunk4_bytes _ (fun c _ _ => writeLE4_bytes _) buf hb, ?_⟩
    show some (chunk4 (fun c => writeLE4 (swap32 (readLE4 c)))
      (chunk4 (fun c => writeLE4 (swap32 (readLE4 c))) buf)) = some buf
    rw [chunk4_swap_invol buf hb]
  | 16 => exact ⟨buf, rfl, hb, rfl⟩
  | 17 => exact absurd rfl h17
  | 18 => exact absurd rfl h18
  | (n + 19) => exact ⟨buf, rfl, hb, rfl⟩

section RunEncodeLemmas

theorem run_nil (x : List Nat) (m : Manifest) : run x [] m = some x := rfl

theorem run_cons (x : List Nat) (o : EncOp) (ops : List EncOp) (m : Manifest) :
    run x (o :: ops) m = (runStep m x o).bind (fun y => run y ops m) := by
  simp [run, List.foldlM_cons]

theorem encode_nil (p : List Nat) (m : Manifest) : encode p [] m = some p := rfl

theorem encode_cons (p : List Nat) (o : EncOp) (ops : List EncOp) (m : Manifest) :
    encode p (o :: ops) m = (encode p ops m).bind (fun z => encodeStep m z o) := by
  unfold encode
  rw [List.reverse_cons, List.foldlM_append]
  simp

/-- Step-level round trip for operations whose action index avoids
{4,5,6,7,8,17,18}. -/
theorem stepInv (m : Manifest) (o : EncOp) (buf : List Nat)
    (hm : SboxInv m) (hb : Bytes buf)
    (hok : ∀ i ∈ ([4, 5, 6, 7, 8, 17, 18] : List Nat), lookupIdx m o.op ≠ some i) :
    ∃ y, runStep m buf o = some y ∧ Bytes y ∧ encodeStep m y o = some buf := by
  unfold runStep encodeStep
  cases hl : lookupIdx m o.op with
  | none => exact ⟨buf, rfl, hb, rfl⟩
  | some idx =>
    by_cases h255 : idx = 255
    · subst h255
      exact ⟨buf, by simp, hb, by simp⟩
    · have hne : ∀ i ∈ ([4, 5, 6, 7, 8, 17, 18] : List Nat), idx ≠ i := by
        intro i hi hcon
        exact hok i hi (by rw [hl, hcon])
      obtain ⟨y, hy1, hy2, hy3⟩ := fwdInv idx buf o.params m hm hb
        (hne 4 (by simp)) (hne 5 (by simp)) (hne 6 (by simp)) (hne 7 (by simp))
        (hne 8 (by simp)) (hne 17 (by simp)) (hne 18 (by simp))
      exact ⟨y, by simp [h255, hy1], hy2, by simp [h255, hy3]⟩

/-- Round trip of `run` then `encode` over an operation list avoiding actions
{4,5,6,7,8,17,18}. -/
theorem run_encode_aux (m : Manifest) (hm : SboxInv m) :
    ∀ (ops : List EncOp) (x : List Nat), Bytes x →
      (∀ o ∈ ops, ∀ i ∈ ([4, 5, 6, 7, 8, 17, 18] : List Nat), lookupIdx m o.op ≠ some i) →
      (run x ops m).bind (fun y => encode y ops m) = some x
  | [], x, hx, _ => by simp [run_nil, encode_nil]
  | o :: ops, x, hx, hops => by
    obtain ⟨y, hy1, hy2, hy3⟩ := stepInv m o x hm hx (hops o (by simp))
    rw [run_cons, hy1, Option.some_bind]
    have hrest := run_encode_aux m hm ops y hy2 (fun o' ho' => hops o' (by simp [ho']))
    cases hr : run y ops m with
    | none => rw [hr] at hrest; simp at hrest
    | some z =>
      rw [hr] at hrest
      simp only [Option.some_bind] at hrest ⊢
      rw [encode_cons, hrest, Option.some_bind]
      exact hy3

end RunEncodeLemmas

/-- C1 (amended): for every manifest whose `vm_inv` is the inverse permutation
of `vm`, and every operation list whose opcodes map to action indices outside
{4,5,6,7,8,17,18} (so invertible actions or unassigned), and every byte buffer
`x`, `encode(run(x, ops, manifest), ops, manifest)` equals `x` byte for byte.
The claim's original exclusion set {4,5,6,7,8,18} admits action 17 (`set_bit`),
which destroys the original bit value and breaks the round trip (see the
counterexample); adding 17 to the exclusions makes the round trip hold. -/
theorem C1_run_encode_roundtrip (m : Manifest) (ops : List EncOp) (x : List Nat)
    (hm : SboxInv m) (hx : Bytes x)
    (hops : ∀ o ∈ ops, ∀ i ∈ ([4, 5, 6, 7, 8, 17, 18] : List Nat), lookupIdx m o.op ≠ some i) :
    (run x ops m).bind (fun y => encode y ops m) = some x :=
  run_encode_aux m hm ops x hx hops

theorem range256_getD (i : Nat) (h : i < 256) : (List.range 256).getD i 0 = i := by
  rw [List.getD_eq_getElem _ _ (by simpa using h)]
  simp

/-- The identity permutation pair is a well-formed S-box pair. -/
theorem sboxInv_identity (oa : List Nat) :
    SboxInv ⟨List.range 256, List.range 256, oa⟩ := by
  refine ⟨by simp, by simp, ?_, ?_, ?_, ?_⟩
  · intro x hx
    exact List.mem_range.mp hx
  · intro x hx
    exact List.mem_range.mp hx
  · intro b hb
    rw [range256_getD b hb, range256_getD b hb]
  · intro b hb
    rw [range256_getD b hb, range256_getD b hb]

/-- Manifest for the C1 counterexample: identity S-box pair, opcode 0 mapped to
action 17 (`set_bit`), all other opcodes unassigned. -/
def mSet17 : Manifest :=
  ⟨List.range 256, List.range 256, (List.range 256).map (fun i => if i = 0 then 17 else 255)⟩

/-- C1 (counterexample): with the identity S-box manifest mapping opcode 0 to
action 17 — an action the claim's exclusion set {4,5,6,7,8,18} admits — the
single operation `(0, [0,1])` on buffer `[1,0,0,0]` sets bit 0 of the word
(leaving `[1,0,0,0]`), but `encode` clears it, returning `[0,0,0,0] ≠ [1,0,0,0]`:
the claim as stated is false. -/
theorem C1_counterexample :
    ¬ (∀ (m : Manifest) (ops : List EncOp) (x : List Nat), SboxInv m → Bytes x →
      (∀ o ∈ ops, ∀ i ∈ ([4, 5, 6, 7, 8, 18] : List Nat), lookupIdx m o.op ≠ some i) →
      (run x ops m).bind (fun y => encode y ops m) = some x) := by
  intro h
  exact absurd
    (h mSet17 [⟨0, [0, 1]⟩] [1, 0, 0, 0] (sboxInv_identity _) (by decide) (by decide))
    (by decide)

/-- Manifest for the C1 witness: identity S-box pair, opcode 0 mapped to
action 15 (`swap32`), all other opcodes unassigned. -/
def mSwap15 : Manifest :=
  ⟨List.range 256, List.range 256, (List.range 256).map (fun i => if i = 0 then 15 else 255)⟩

/-- Witness for C1 at a concrete manifest, operation list and buffer. -/
theorem C1_run_encode_roundtrip_witness :
    (run [1, 2, 3, 4] [⟨0, []⟩] mSwap15).bind (fun y => encode y [⟨0, []⟩] mSwap15) =
      some [1, 2, 3, 4] :=
  C1_run_encode_roundtrip mSwap15 [⟨0, []⟩] [1, 2, 3, 4] (sboxInv_identity _) (by decide)
    (by decide)

/-- The expected-value computation of `createFullChallenge`
(`api/challenge/route.ts`): `expected = result.length >= 4 ? readU32LE(result, 0) : 0`
applied to `result = run(inputBytes, operations, bytecodes)`. -/
def expectedOf (input : List Nat) (ops : List EncOp) (m : Manifest) : Option Int :=
  (run input ops m).map (fun result =>
    if 4 ≤ result.length then readU32LEjs result 0 else 0)

/-- The spec's `u32_le(result[0..4])`: unsigned little-endian value of the
first four bytes. -/
def u32leSpec (l : List Nat) : Nat :=
  l.getD 0 0 + 256 * l.getD 1 0 + 65536 * l.getD 2 0 + 16777216 * l.getD 3 0

/-- Manifest for the C2 failing input: identity S-box pair, opcode 5 mapped to
action 16 (`get_bit`, a admissible no-op), all other opcodes unassigned. -/
def mGet16 : Manifest :=
  ⟨List.range 256, List.range 256, (List.range 256).map (fun i => if i = 5 then 16 else 255)⟩

/-- Operation list of eight no-op operations (builder-shaped: 8 ops, admissible
action 16). -/
def ops16 : List EncOp := List.replicate 8 ⟨5, []⟩

/-- C2: the builder stores `readU32LE(result, 0)`, which in JS is a bitwise-`|`
chain and therefore a SIGNED int32: on the run result `[0,0,0,0x80,...]` the
code computes expected = -2147483648, whereas the little-endian u32 of the
first 4 bytes is 2147483648.  The claim (and the spec's `u32_le`) says the u32
is stored; the code stores the signed reinterpretation, so roughly half of all
challenges get a negative `expected` that no `>>> 0`-normalised `solved` can
ever equal. -/
theorem C2_expected_signed_bug :
    expectedOf [0, 0, 0, 128, 0, 0, 0, 0] ops16 mGet16 = some (-2147483648) ∧
    run [0, 0, 0, 128, 0, 0, 0, 0] ops16 mGet16 = some [0, 0, 0, 128, 0, 0, 0, 0] ∧
    u32leSpec [0, 0, 0, 128, 0, 0, 0, 0] = 2147483648 ∧
    ((-2147483648 : Int) ≠ ((2147483648 : Nat) : Int)) := by
  refine ⟨by decide, by decide, by decide, by decide⟩

/-- The empty manifest (the hex actions never consult the tables). -/
def mEmptyManifest : Manifest := ⟨[], [], []⟩

/-- C7: in `applyInverseOp`, action 7 (forward hex ENCODE) is "inverted" by
hex-ENCODING again (`toHex`, identical to the forward case), not by
hex-decoding as the claim and the spec's inverse table state; likewise action 8
is "inverted" by hex-DECODING again, not by hex-encoding.  On the ASCII buffer
"00" = [48,48], the code's inverse-7 yields "3030" = [51,48,51,48] while
hex-decoding yields [0]; on "30" = [51,48], the code's inverse-8 yields [48]
while hex-encoding yields "3330" = [51,51,51,48]. -/
theorem C7_inverse_hex_swapped :
    applyInverseOp 7 [48, 48] [] mEmptyManifest = some [51, 48, 51, 48] ∧
    fromHexBytes [48, 48] = some [0] ∧
    applyInverseOp 7 [48, 48] [] mEmptyManifest ≠ some [0] ∧
    applyInverseOp 8 [51, 48] [] mEmptyManifest = some [48] ∧
    toHexBytes [51, 48] = [51, 51, 51, 48] ∧
    applyInverseOp 8 [51, 48] [] mEmptyManifest ≠ some [51, 51, 51, 48] := by
  refine ⟨by decide, by decide, by decide, by decide, by decide, by decide⟩

/-- The KV store as an association list (keys unique in all reachable states),
values the stored JS numbers. -/
abbrev KVStore := List (String × Int)

/-- Key layout `challenge:{challengeId}`. -/
def chKey (cid : String) : String := "challenge:" ++ cid

/-- `getAndDel` in `redis.ts`: a GET followed by a separate DEL (two
distinct awaited Redis commands, not a GETDEL or transaction). This pair is
its per-call effect on the store; the two underlying commands are modelled
as individual atomic steps by `stepCall` below for interleaved executions
(a DEL of an absent key leaves the store unchanged, so returning the erased
store in the `none` case too is per-call equivalent to the early return). -/
def getAndDel (store : KVStore) (k : String) : Option Int × KVStore :=
  (store.lookup k, store.eraseP (fun p => p.1 == k))

inductive VerifyOutcome
  | badSolved
  | badToken
  | notFound
  | wrongAnswer
  | okTrue
deriving DecidableEq

/-- The `ok` field of the JSON reply. -/
def VerifyOutcome.ok : VerifyOutcome → Bool
  | .okTrue => true
  | _ => false

/-- The HTTP status of the reply. -/
def VerifyOutcome.status : VerifyOutcome → Nat
  | .badSolved => 400
  | .badToken => 401
  | .notFound => 400
  | .wrongAnswer => 200
  | .okTrue => 200

/-- Core of the verify POST handler (`api/challenge/verify/route.ts`):
reject `solved` outside `[-2^31, 2^32-1]` (400, before the JWT check and
before any store access), normalise with `>>> 0` (`% 2^32`), verify the token
(`tokenOk`/`cid` abstract `verifyChallengeToken`), then atomically
get-and-delete `challenge:{cid}` and compare. -/
def verifyPost (store : KVStore) (tokenOk : Bool) (cid : String) (solved : Int) :
    VerifyOutcome × KVStore :=
  if solved < -2147483648 ∨ 4294967295 < solved then (.badSolved, store)
  else
    let solvedNum := solved % 4294967296
    if !tokenOk then (.badToken, store)
    else
      let r := getAndDel store (chKey cid)
      match r.1 with
      | none => (.notFound, r.2)
      | some expected =>
        if solvedNum ≠ expected then (.wrongAnswer, r.2) else (.okTrue, r.2)

/-- Sequential composition of verify calls (each `(tokenOk, cid, solved)`). -/
def runVerifies (store : KVStore) (calls : List (Bool × String × Int)) : KVStore :=
  calls.foldl (fun s c => (verifyPost s c.1 c.2.1 c.2.2).2) store

section VerifyLemmas

theorem lookup_eq_none_iff (l : KVStore) (k : String) :
    l.lookup k = none ↔ ∀ p ∈ l, p.1 ≠ k := by
  induction l with
  | nil => simp
  | cons a rest ih =>
    obtain ⟨ak, av⟩ := a
    by_cases h : k = ak
    · subst h
      constructor
      · intro hl
        simp [List.lookup] at hl
      · intro hall
        exact absurd rfl (hall (k, av) (by simp))
    · rw [show ((ak, av) :: rest).lookup k = rest.lookup k from by
        simp [List.lookup, beq_false_of_ne h]]
      rw [ih]
      constructor
      · intro hall p hp
        rcases List.mem_cons.mp hp with rfl | hmem
        · exact fun he => h he.symm
        · exact hall p hmem
      · intro hall p hp
        exact hall p (by simp [hp])

theorem verifyPost_snd_sublist (store : KVStore) (tokenOk : Bool) (cid : String) (solved : Int) :
    (verifyPost store tokenOk cid solved).2.Sublist store := by
  unfold verifyPost
  split
  · exact List.Sublist.refl store
  · split
    · exact List.Sublist.refl store
    · rcases h : (getAndDel store (chKey cid)).1 with _ | e
      · simp only [getAndDel] at h ⊢
        simp [h, List.eraseP_sublist]
      · simp only [getAndDel] at h ⊢
        simp only [h]
        split
        · exact List.eraseP_sublist store
        · exact List.eraseP_sublist store

theorem lookup_none_of_sublist (l' l : KVStore) (k : String) (hs : l'.Sublist l)
    (h : l.lookup k = none) : l'.lookup k = none := by
  rw [lookup_eq_none_iff] at h ⊢
  intro p hp
  exact h p (hs.mem hp)

theorem verifyPost_preserves_absent (store : KVStore) (tokenOk : Bool) (cid : String)
    (solved : Int) (k : String) (h : store.lookup k = none) :
    (verifyPost store tokenOk cid solved).2.lookup k = none :=
  lookup_none_of_sublist _ _ _ (verifyPost_snd_sublist store tokenOk cid solved) h

theorem runVerifies_preserves_absent (k : String) :
    ∀ (calls : List (Bool × String × Int)) (store : KVStore),
      store.lookup k = none → (runVerifies store calls).lookup k = none
  | [], _, h => h
  | c :: calls, store, h =>
    runVerifies_preserves_absent k calls _ (verifyPost_preserves_absent store c.1 c.2.1 c.2.2 k h)

theorem lookup_eraseP_self (k : String) :
    ∀ l : KVStore, (l.map Prod.fst).Nodup → (l.eraseP (fun p => p.1 == k)).lookup k = none
  | [], _ => rfl
  | a :: rest, hnd => by
    have hnd' : (rest.map Prod.fst).Nodup := (List.nodup_cons.mp hnd).2
    by_cases h : a.1 = k
    · rw [show (a :: rest).eraseP (fun p => p.1 == k) = rest from by
        simp [List.eraseP_cons, h]]
      rw [lookup_eq_none_iff]
      intro p hp hpk
      have : a.1 ∈ rest.map Prod.fst := by
        rw [h, ← hpk]
        exact List.mem_map_of_mem Prod.fst hp
      exact (List.nodup_cons.mp hnd).1 this
    · rw [show (a :: rest).eraseP (fun p => p.1 == k) =
          a :: rest.eraseP (fun p => p.1 == k) from by
        simp [List.eraseP_cons, h]]
      rw [show (a :: rest.eraseP (fun p => p.1 == k)).lookup k =
          (rest.eraseP (fun p => p.1 == k)).lookup k from by
        simp [List.lookup, beq_false_of_ne (fun he => h he.symm)]]
      exact lookup_eraseP_self k rest hnd'

/-- A verify call that found the stored entry leaves the key deleted. -/
theorem verifyPost_found_deletes (store : KVStore) (tokenOk : Bool) (cid : String)
    (solved : Int) (hnd : (store.map Prod.fst).Nodup)
    (hfound : (verifyPost store tokenOk cid solved).1 = .wrongAnswer ∨
      (verifyPost store tokenOk cid solved).1 = .okTrue) :
    (verifyPost store tokenOk cid solved).2.lookup (chKey cid) = none := by
  by_cases hr : solved < -2147483648 ∨ 4294967295 < solved
  · have hv : verifyPost store tokenOk cid solved = (.badSolved, store) := by
      unfold verifyPost
      rw [if_pos hr]
    rw [hv] at hfound
    rcases hfound with h | h <;> cases h
  · cases tokenOk with
    | false =>
      have hv : verifyPost store false cid solved = (.badToken, store) := by
        unfold verifyPost
        rw [if_neg hr]
        simp
      rw [hv] at hfound
      rcases hfound with h | h <;> cases h
    | true =>
      rcases hl : store.lookup (chKey cid) with _ | e
      · have hv : verifyPost store true cid solved =
            (.notFound, store.eraseP (fun p => p.1 == chKey cid)) := by
          unfold verifyPost
          rw [if_neg hr]
          simp [getAndDel, hl]
        rw [hv] at hfound
        rcases hfound with h | h <;> cases h
      · have hsnd : (verifyPost store true cid solved).2 =
            store.eraseP (fun p => p.1 == chKey cid) := by
          unfold verifyPost
          rw [if_neg hr]
          simp only [Bool.not_true, Bool.false_eq_true, if_false, getAndDel, hl]
          split <;> rfl
        rw [hsnd]
        exact lookup_eraseP_self (chKey cid) store hnd

/-- On a store without the key, verify can only answer 400/401, never ok. -/
theorem verifyPost_absent_notFound (store : KVStore) (tokenOk : Bool) (cid : String)
    (solved : Int) (habs : store.lookup (chKey cid) = none) :
    (verifyPost store tokenOk cid solved).1.ok = false ∧
    (-2147483648 ≤ solved → solved ≤ 4294967295 → tokenOk = true →
      (verifyPost store tokenOk cid solved).1 = .notFound) := by
  by_cases hr : solved < -2147483648 ∨ 4294967295 < solved
  · have hv : verifyPost store tokenOk cid solved = (.badSolved, store) := by
      unfold verifyPost
      rw [if_pos hr]
    rw [hv]
    exact ⟨rfl, fun h1 h2 _ => absurd hr (by omega)⟩
  · cases tokenOk with
    | false =>
      have hv : verifyPost store false cid solved = (.badToken, store) := by
        unfold verifyPost
        rw [if_neg hr]
        simp
      rw [hv]
      exact ⟨rfl, fun _ _ ht => by cases ht⟩
    | true =>
      have hv : verifyPost store true cid solved =
          (.notFound, store.eraseP (fun p => p.1 == chKey cid)) := by
        unfold verifyPost
        rw [if_neg hr]
        simp [getAndDel, habs]
      rw [hv]
      exact ⟨rfl, fun _ _ _ => rfl⟩

end VerifyLemmas

/-- One in-flight verify request for a fixed challenge id: not yet started
its Redis commands, past its GET (holding the value it read), or finished. -/
inductive CallState
  | start (tokenOk : Bool) (solved : Int)
  | gotten (solved : Int) (v : Option Int)
  | done (out : VerifyOutcome)
deriving DecidableEq

/-- One atomic step of a verify call against the shared store. The solved
range check, the `>>> 0` normalisation, the token check and the `await
c.get(key)` inside `getAndDel` touch the store at most once and form the
first step; the separate `await c.del(key)` plus the comparison and reply
form the second. Between the two, other requests may run their own steps. -/
def stepCall (cid : String) : CallState → KVStore → CallState × KVStore
  | .start tokenOk solved, store =>
    if solved < -2147483648 ∨ 4294967295 < solved then (.done .badSolved, store)
    else if !tokenOk then (.done .badToken, store)
    else (.gotten (solved % 4294967296) (store.lookup (chKey cid)), store)
  | .gotten solvedNum v, store =>
    match v with
    | none => (.done .notFound, store)
    | some expected =>
      if solvedNum ≠ expected then
        (.done .wrongAnswer, store.eraseP (fun p => p.1 == chKey cid))
      else (.done .okTrue, store.eraseP (fun p => p.1 == chKey cid))
  | .done out, store => (.done out, store)

/-- Interleave two verify calls for the same challenge id under a schedule:
`true` steps the first call, `false` the second. -/
def runTwo (cid : String) : List Bool → CallState × CallState × KVStore →
    CallState × CallState × KVStore
  | [], s => s
  | b :: rest, (c1, c2, store) =>
    if b then
      runTwo cid rest ((stepCall cid c1 store).1, c2, (stepCall cid c1 store).2)
    else
      runTwo cid rest (c1, (stepCall cid c2 store).1, (stepCall cid c2 store).2)

/-- C3: the claim fails. `getAndDel` in `redis.ts` is a plain GET followed
by a separate DEL — not an atomic get-and-delete — so two concurrent verify
calls for the same challenge id can interleave as GET₁ GET₂ DEL₁ DEL₂: both
observe the stored expected value and both reply `{ok:true}`, refuting
"at most one verify call observes the stored expected value" and "two calls
can never both return {ok:true}". Run back-to-back instead, the same two
calls give `{ok:true}` then `notFound`: only the sequential schedule shows
the claimed behaviour. -/
theorem C3_getAndDel_not_atomic :
    (runTwo "c" [true, false, true, false]
        (.start true 5, .start true 5, [(chKey "c", 5)]) =
      (.done .okTrue, .done .okTrue, []) ∧
      VerifyOutcome.ok .okTrue = true) ∧
    runTwo "c" [true, true, false, false]
        (.start true 5, .start true 5, [(chKey "c", 5)]) =
      (.done .okTrue, .done .notFound, []) := by
  exact ⟨⟨by decide, by decide⟩, by decide⟩

/-- C8: a `solved` outside `[-2^31, 2^32-1]` is rejected with 400 before any
store access (the store is returned untouched), and a negative in-range
`solved` is compared as the u32 `solved + 2^32` (JS `>>> 0` bitcast): with
that value stored as `expected`, verify answers `{ok:true}`. -/
theorem C8_solved_range_bitcast (store : KVStore) (tokenOk : Bool) (cid : String)
    (solvedOut solvedNeg : Int)
    (hout : solvedOut < -2147483648 ∨ 4294967295 < solvedOut)
    (hn1 : -2147483648 ≤ solvedNeg) (hn2 : solvedNeg ≤ -1) (htok : tokenOk = true)
    (hlk : store.lookup (chKey cid) = some (solvedNeg + 4294967296)) :
    verifyPost store tokenOk cid solvedOut = (.badSolved, store) ∧
    VerifyOutcome.status .badSolved = 400 ∧
    solvedNeg % 4294967296 = solvedNeg + 4294967296 ∧
    (verifyPost store tokenOk cid solvedNeg).1 = .okTrue := by
  subst htok
  have h1 : verifyPost store true cid solvedOut = (.badSolved, store) := by
    unfold verifyPost
    rw [if_pos hout]
  have hmod : solvedNeg % 4294967296 = solvedNeg + 4294967296 := by omega
  have h4 : (verifyPost store true cid solvedNeg).1 = .okTrue := by
    unfold verifyPost
    rw [if_neg (by omega)]
    simp only [Bool.not_true, Bool.false_eq_true, if_false, getAndDel, hlk]
    rw [hmod]
    simp
  exact ⟨h1, rfl, hmod, h4⟩

/-- Witness for C8 at concrete values. -/
theorem C8_solved_range_bitcast_witness :
    verifyPost [(chKey "w", 4294967291)] true "w" 4294967296 =
      (.badSolved, [(chKey "w", 4294967291)]) ∧
    VerifyOutcome.status .badSolved = 400 ∧
    (-5 : Int) % 4294967296 = -5 + 4294967296 ∧
    (verifyPost [(chKey "w", 4294967291)] true "w" (-5)).1 = .okTrue :=
  C8_solved_range_bitcast [(chKey "w", 4294967291)] true "w" 4294967296 (-5)
    (by decide) (by decide) (by decide) (by decide) (by decide)

/-- Escalated block duration of the rate limiter
(`recordRateLimitViolation` in `request-risk-assessor.ts`):
`base = min(MAX_BLOCK_SEC, BASE_BLOCK_SEC + (nextBlockCount - 1) * BLOCK_INCREMENT_SEC)`,
`blockDurationSec = max(5, min(MAX_BLOCK_SEC, base + jitter))` with
`BASE_BLOCK_SEC = 8`, `BLOCK_INCREMENT_SEC = 3`, `MAX_BLOCK_SEC = 25`. -/
def blockDurationSec (nextBlockCount : Nat) (jitter : Int) : Int :=
  let base : Int := min 25 (8 + ((nextBlockCount : Int) - 1) * 3)
  max 5 (min 25 (base + jitter))

/-- The escalation branch of `recordRateLimitViolation`: with
`STRIKES_FOR_ESCALATION = 6` recent violations in the 2-minute window, block
for `blockDurationSec (blockCount + 1) jitter` seconds
(`randomInRange (-2) 2` supplies `jitter ∈ [-2, 2]`). -/
def escalatedBlock (strikes blockCount : Nat) (jitter : Int) : Option Int :=
  if 6 ≤ strikes then some (blockDurationSec (blockCount + 1) jitter) else none

/-- C9: when the limiter escalates to a block after at least 6 violations in
the window, the chosen duration equals `min(25, 8 + 3*(n-1))` plus the jitter,
clamped to `[5, 25]`, where `n = blockCount + 1` is the new block count; the
final duration always lies between 5 and 25 seconds inclusive. -/
theorem C9_block_duration (strikes blockCount : Nat) (jitter : Int)
    (hstrikes : 6 ≤ strikes) (hj1 : -2 ≤ jitter) (hj2 : jitter ≤ 2) :
    escalatedBlock strikes blockCount jitter =
      some (max 5 (min 25 (min 25 (8 + (((blockCount + 1 : Nat) : Int) - 1) * 3) + jitter))) ∧
    (∀ d, escalatedBlock strikes blockCount jitter = some d → 5 ≤ d ∧ d ≤ 25) := by
  constructor
  · unfold escalatedBlock blockDurationSec
    rw [if_pos hstrikes]
  · intro d hd
    unfold escalatedBlock blockDurationSec at hd
    rw [if_pos hstrikes] at hd
    have hd' : d = max 5 (min 25 (min 25 (8 + (((blockCount : Int) + 1) - 1) * 3) + jitter)) := by
      cases hd
      push_cast
      ring_nf
    omega

/-- Witness for C9 at concrete values. -/
theorem C9_block_duration_witness :
    escalatedBlock 6 0 2 =
      some (max 5 (min 25 (min 25 (8 + (((0 + 1 : Nat) : Int) - 1) * 3) + 2))) ∧
    (∀ d, escalatedBlock 6 0 2 = some d → 5 ≤ d ∧ d ≤ 25) :=
  C9_block_duration 6 0 2 (by decide) (by decide) (by decide)

/-- Full manifest well-formedness: three 256-entry byte tables (the shape of
every generated `bytecodes.json`). -/
def ManifestWf (m : Manifest) : Prop :=
  m.vm.length = 256 ∧ m.vm_inv.length = 256 ∧ m.opcode_action.length = 256 ∧
  (∀ x ∈ m.vm, x < 256) ∧ (∀ x ∈ m.vm_inv, x < 256) ∧ (∀ x ∈ m.opcode_action, x < 256)

instance (m : Manifest) : Decidable (ManifestWf m) := by
  unfold ManifestWf
  infer_instance

/-- The C `vm_run` case 7 (`to_hex` in place): only for an even length of at
least 2; the loop `for (k = n; k > 0;) { k--; buf[2k] = hex(buf[k]>>4);
buf[2k+1] = hex(buf[k]&0xf); }` with `n = buf_len/2` runs k downwards, so every
read `buf[k]` (k < n) happens before any write at position ≤ k; the result is
the hex expansion of the first half filling the whole (fixed-size) buffer. -/
def cToHexInPlace (buf : List Nat) : List Nat :=
  if 2 ≤ buf.length ∧ buf.length % 2 = 0 then toHexBytes (buf.take (buf.length / 2)) else buf

/-- Decoded prefix of the C `vm_run` case 8 loop: one byte per character pair,
stopping at the first invalid pair (`hex_char` > 15). -/
def cHexPairsGo : List Nat → List Nat
  | c1 :: c2 :: rest =>
    match hexVal c1, hexVal c2 with
    | some a, some b => (16 * a + b) :: cHexPairsGo rest
    | _, _ => []
  | _ => []

/-- The C `vm_run` case 8 (`from_hex` in place): only for an even length of at
least 2; writes decoded bytes at positions `0..` (each read `buf[2k]`,
`buf[2k+1]` precedes any write there), leaving the rest of the fixed-size
buffer unchanged. -/
def cFromHexInPlace (buf : List Nat) : List Nat :=
  if 2 ≤ buf.length ∧ buf.length % 2 = 0 then
    cHexPairsGo buf ++ buf.drop (cHexPairsGo buf).length
  else buf

/-- The switch of the C `vm_run` (template `CSourceStrings.Main`), dispatching
one action index on the buffer with the per-call key.  `chacha` is the
`env.chacha_poly_decrypt` import (a parameter of the WASM instance); `none`
models a non-zero return code. -/
def cDispatch (chacha : List Nat → List Nat → Option (List Nat)) (idx : Nat)
    (buf key : List Nat) (m : Manifest) : Option (List Nat) :=
  match idx with
  | 0 => some (applySbox buf (u8 m.vm))
  | 1 => some (applySbox buf (u8 m.vm_inv))
  | 2 => some (xorWithKey buf key)
  | 3 => some (xorWithKey buf key)
  | 4 => some (crcTail buf)
  | 5 => some (adlerTail buf)
  | 6 => some (xorTail buf)
  | 7 => some (cToHexInPlace buf)
  | 8 => some (cFromHexInPlace buf)
  | 9 => some (chunk4 (fun c => writeLE4 (readBE4 c)) buf)
  | 10 => some (chunk4 (fun c => writeBE4 (readLE4 c)) buf)
  | 11 => some (chunk4 (fun c => writeBE4 (readLE4 c)) buf)
  | 12 => some (chunk4 (fun c => writeLE4 (readBE4 c)) buf)
  | 13 => some (if 0 < key.length then
      chunk4 (fun c => writeLE4 (rotl32 (readLE4 c) (key.getD 0 0 &&& 31))) buf else buf)
  | 14 => some (if 0 < key.length then
      chunk4 (fun c => writeLE4 (rotr32 (readLE4 c) (key.getD 0 0 &&& 31))) buf else buf)
  | 15 => some (chunk4 (fun c => writeLE4 (swap32 (readLE4 c))) buf)
  | 16 => some buf
  | 17 => some (if 2 ≤ key.length then
      chunk4 (fun c => writeLE4 (setBit32 (readLE4 c) (key.getD 0 0 &&& 31)
        ((key.getD 1 0 &&& 1) != 0))) buf else buf)
  | 18 => if 60 ≤ key.length ∧ 16 < buf.length then chacha buf key else some buf
  | _ => some buf

/-- One client-side WASM call (`vmRun` in `vm-inject.ts` with a single opcode
inside C `vm_run`): `uint8_t idx = opcode_action[actions[i]]; if (idx == 255)
continue;` then the switch. -/
def cVmStep (chacha : List Nat → List Nat → Option (List Nat)) (m : Manifest)
    (buf : List Nat) (opc : Nat) (key : List Nat) : Option (List Nat) :=
  let idx := (u8 m.opcode_action).getD opc 0
  if idx = 255 then some buf else cDispatch chacha idx buf key m

/-- The client driver `vmRunWithOperations`: one `vm_run` call per operation,
its params marshalled as the key bytes, the opcode marshalled as a byte;
stops at the first non-zero return code. -/
def wasmRun (chacha : List Nat → List Nat → Option (List Nat)) (buffer : List Nat)
    (operations : List EncOp) (m : Manifest) : Option (List Nat) :=
  operations.foldlM (fun buf o => cVmStep chacha m buf (o.op % 256) (u8 o.params)) buffer

section WasmRefLemmas

theorem cDispatch_eq_forward (chacha : List Nat → List Nat → Option (List Nat)) (idx : Nat)
    (buf params : List Nat) (m : Manifest)
    (h7 : idx ≠ 7) (h8 : idx ≠ 8) (h18 : idx ≠ 18) :
    cDispatch chacha idx buf (u8 params) m = applyForwardOp idx buf params m := by
  match idx with
  | 0 => rfl
  | 1 => rfl
  | 2 => rfl
  | 3 => rfl
  | 4 => rfl
  | 5 => rfl
  | 6 => rfl
  | 7 => exact absurd rfl h7
  | 8 => exact absurd rfl h8
  | 9 => rfl
  | 10 => rfl
  | 11 => rfl
  | 12 => rfl
  | 13 => rfl
  | 14 => rfl
  | 15 => rfl
  | 16 => rfl
  | 17 => rfl
  | 18 => exact absurd rfl h18
  | (n + 19) => rfl

theorem cVmStep_eq_runStep (chacha : List Nat → List Nat → Option (List Nat)) (m : Manifest)
    (buf : List Nat) (o : EncOp) (hwf : ManifestWf m)
    (hop : o.op ≤ 255)
    (h7 : m.opcode_action.getD o.op 0 ≠ 7) (h8 : m.opcode_action.getD o.op 0 ≠ 8)
    (h18 : m.opcode_action.getD o.op 0 ≠ 18) :
    cVmStep chacha m buf (o.op % 256) (u8 o.params) = runStep m buf o := by
  obtain ⟨_, _, hlen, _, _, hoaB⟩ := hwf
  have hmod : o.op % 256 = o.op := Nat.mod_eq_of_lt (by omega)
  have hu8 : u8 m.opcode_action = m.opcode_action := u8_eq_self _ hoaB
  have hget : m.opcode_action[o.op]? = some (m.opcode_action.getD o.op 0) := by
    have hlt : o.op < m.opcode_action.length := by omega
    rw [List.getElem?_eq_getElem hlt, List.getD_eq_getElem _ _ hlt]
  unfold cVmStep runStep lookupIdx
  rw [hmod, hu8, if_pos hop, hget]
  show (if m.opcode_action.getD o.op 0 = 255 then some buf
      else cDispatch chacha (m.opcode_action.getD o.op 0) buf (u8 o.params) m) =
    (if m.opcode_action.getD o.op 0 = 255 then some buf
      else applyForwardOp (m.opcode_action.getD o.op 0) buf o.params m)
  by_cases h255 : m.opcode_action.getD o.op 0 = 255
  · rw [if_pos h255, if_pos h255]
  · rw [if_neg h255, if_neg h255]
    exact cDispatch_eq_forward chacha _ buf o.params m h7 h8 h18

theorem wasmRun_cons (chacha : List Nat → List Nat → Option (List Nat)) (x : List Nat)
    (o : EncOp) (ops : List EncOp) (m : Manifest) :
    wasmRun chacha x (o :: ops) m =
      (cVmStep chacha m x (o.op % 256) (u8 o.params)).bind
        (fun y => wasmRun chacha y ops m) := by
  simp [wasmRun, List.foldlM_cons]

/-- C5 (amended): the compiled WASM `vm_run` (driven per-operation by
`vmRunWithOperations`) and the host reference `run` produce byte-identical
outputs for every well-formed manifest and every operation list of byte
opcodes whose action indices avoid {7, 8, 18} — the actions where the two
implementations genuinely differ (the C VM does hex in place at fixed length,
and case 18 calls the decrypt import while the reference throws). -/
theorem C5_wasm_matches_run (chacha : List Nat → List Nat → Option (List Nat))
    (m : Manifest) (input : List Nat) (ops : List EncOp) (hwf : ManifestWf m)
    (hops : ∀ o ∈ ops, o.op ≤ 255 ∧ m.opcode_action.getD o.op 0 ≠ 7 ∧
      m.opcode_action.getD o.op 0 ≠ 8 ∧ m.opcode_action.getD o.op 0 ≠ 18) :
    wasmRun chacha input ops m = run input ops m := by
  induction ops generalizing input with
  | nil => rfl
  | cons o rest ih =>
    obtain ⟨hop, h7, h8, h18⟩ := hops o (by simp)
    have hstep : ∀ buf, cVmStep chacha m buf (o.op % 256) (u8 o.params) = runStep m buf o :=
      fun buf => cVmStep_eq_runStep chacha m buf o hwf hop h7 h8 h18
    rw [wasmRun_cons, run_cons, hstep input]
    cases hr : runStep m input o with
    | none => rfl
    | some y =>
      simp only [Option.some_bind]
      exact ih y (fun o' ho' => hops o' (by simp [ho']))

end WasmRefLemmas

/-- Manifest for the C5 counterexample: identity S-box pair, opcode 0 mapped
to action 7 (`to_hex`), all other opcodes unassigned. -/
def mHex7 : Manifest :=
  ⟨List.range 256, List.range 256, (List.range 256).map (fun i => if i = 0 then 7 else 255)⟩

/-- C5 (counterexample): on the well-formed manifest mapping opcode 0 to
action 7, input `[0xAB, 0xCD]` and the single operation `(0, [])`, the
reference `run` doubles the buffer to "abcd" = `[97,98,99,100]` while the C
`vm_run` hex-expands the first half in place at fixed length, giving "ab" =
`[97,98]`: the outputs are not byte-identical, so the claim as stated is
false. -/
theorem C5_counterexample :
    ¬ (∀ (chacha : List Nat → List Nat → Option (List Nat)) (m : Manifest)
        (input : List Nat) (ops : List EncOp), ManifestWf m → Bytes input →
        (∀ o ∈ ops, o.op ≤ 255) → wasmRun chacha input ops m = run input ops m) := by
  intro h
  exact absurd
    (h (fun _ _ => none) mHex7 [171, 205] [⟨0, []⟩] (by decide) (by decide) (by decide))
    (by decide)

/-- Witness for C5 at a concrete manifest, buffer and operation list. -/
theorem C5_wasm_matches_run_witness :
    wasmRun (fun _ _ => none) [1, 2, 3, 4] [⟨0, []⟩] mSwap15 =
      run [1, 2, 3, 4] [⟨0, []⟩] mSwap15 :=
  C5_wasm_matches_run (fun _ _ => none) mSwap15 [1, 2, 3, 4] [⟨0, []⟩]
    (by decide) (by decide)

/-- Heap of allocated `Uint8Array`s; a buffer is a reference (index) into it.
Allocation appends at the end. -/
abbrev Heap := List (List Nat)

/-- Buffers unchanged below index `n` (all references allocated before a call). -/
def FrameBelow (n : Nat) (h h2 : Heap) : Prop := ∀ q, q < n → h2.getD q [] = h.getD q []

/-- Forward action at the heap level: the in-place actions (including the
S-box applications, whose `inPlace = true` flag is the mutating worst case)
write only through the given reference; actions 7 and 8 return freshly
allocated arrays (`TextEncoder.encode` / `fromHex`); action 18 throws. -/
def applyForwardOpH (idx : Nat) (h : Heap) (r : Nat) (params : List Nat) (m : Manifest) :
    Option (Heap × Nat) :=
  if idx = 7 then some (h ++ [toHexBytes (h.getD r [])], h.length)
  else if idx = 8 then (fromHexBytes (h.getD r [])).map (fun v => (h ++ [v], h.length))
  else if idx = 18 then none
  else (applyForwardOp idx (h.getD r []) params m).map (fun v => (h.set r v, r))

/-- Inverse action at the heap level (same allocation discipline). -/
def applyInverseOpH (idx : Nat) (h : Heap) (r : Nat) (params : List Nat) (m : Manifest) :
    Option (Heap × Nat) :=
  if idx = 7 then some (h ++ [toHexBytes (h.getD r [])], h.length)
  else if idx = 8 then (fromHexBytes (h.getD r [])).map (fun v => (h ++ [v], h.length))
  else if idx = 18 then none
  else (applyInverseOp idx (h.getD r []) params m).map (fun v => (h.set r v, r))

/-- One `run` loop iteration at the heap level: skip on 255 (`continue`),
otherwise dispatch and then re-wrap in a fresh `new Uint8Array(...)`. -/
def runStepH (m : Manifest) (hr : Heap × Nat) (o : EncOp) : Option (Heap × Nat) :=
  match lookupIdx m o.op with
  | some idx =>
    if idx = 255 then some hr
    else (applyForwardOpH idx hr.1 hr.2 o.params m).map
      (fun hr2 => (hr2.1 ++ [hr2.1.getD hr2.2 []], hr2.1.length))
  | none => (applyForwardOpH 255 hr.1 hr.2 o.params m).map
      (fun hr2 => (hr2.1 ++ [hr2.1.getD hr2.2 []], hr2.1.length))

/-- One `encode` loop iteration at the heap level. -/
def encodeStepH (m : Manifest) (hr : Heap × Nat) (o : EncOp) : Option (Heap × Nat) :=
  match lookupIdx m o.op with
  | some idx =>
    if idx = 255 then some hr
    else (applyInverseOpH idx hr.1 hr.2 o.params m).map
      (fun hr2 => (hr2.1 ++ [hr2.1.getD hr2.2 []], hr2.1.length))
  | none => (applyInverseOpH 255 hr.1 hr.2 o.params m).map
      (fun hr2 => (hr2.1 ++ [hr2.1.getD hr2.2 []], hr2.1.length))

/-- `run` at the heap level: `let buf = new Uint8Array(buffer)` allocates a
copy of the caller's buffer, then the loop runs on that copy. -/
def runH (h : Heap) (rIn : Nat) (ops : List EncOp) (m : Manifest) : Option (Heap × Nat) :=
  ops.foldlM (fun hr o => runStepH m hr o) (h ++ [h.getD rIn []], h.length)

/-- `encode` at the heap level (inverse steps over the reversed list). -/
def encodeH (h : Heap) (rIn : Nat) (ops : List EncOp) (m : Manifest) : Option (Heap × Nat) :=
  ops.reverse.foldlM (fun hr o => encodeStepH m hr o) (h ++ [h.getD rIn []], h.length)

section HeapLemmas

theorem getD_append_single (h : Heap) (v : List Nat) (q : Nat) (hq : q < h.length) :
    (h ++ [v]).getD q [] = h.getD q [] := by
  simp [List.getD_eq_getElem?_getD, List.getElem?_append_left hq]

theorem getD_set_ne (h : Heap) (r : Nat) (v : List Nat) (q : Nat) (hq : q ≠ r) :
    (h.set r v).getD q [] = h.getD q [] := by
  simp [List.getD_eq_getElem?_getD, List.getElem?_set_ne (fun he => hq he.symm)]

theorem frameBelow_trans (n : Nat) (h1 h2 h3 : Heap) (a : FrameBelow n h1 h2)
    (b : FrameBelow n h2 h3) : FrameBelow n h1 h3 :=
  fun q hq => (b q hq).trans (a q hq)

theorem applyForwardOpH_frame (idx : Nat) (h : Heap) (r : Nat) (params : List Nat)
    (m : Manifest) (n : Nat) (h2 : Heap) (r2 : Nat) (hn : n ≤ r) (hlen : n ≤ h.length)
    (hstep : applyForwardOpH idx h r params m = some (h2, r2)) :
    FrameBelow n h h2 ∧ n ≤ r2 ∧ n ≤ h2.length := by
  by_cases h7 : idx = 7
  · rw [applyForwardOpH, if_pos h7] at hstep
    cases hstep
    refine ⟨fun q hq => getD_append_single h _ q (by omega), by omega, ?_⟩
    rw [List.length_append]; omega
  by_cases h8 : idx = 8
  · rw [applyForwardOpH, if_neg h7, if_pos h8] at hstep
    cases hv : fromHexBytes (h.getD r []) with
    | none => rw [hv] at hstep; exact Option.noConfusion hstep
    | some v =>
      rw [hv] at hstep
      simp only [Option.map_some'] at hstep
      cases hstep
      refine ⟨fun q hq => getD_append_single h _ q (by omega), by omega, ?_⟩
      rw [List.length_append]; omega
  by_cases h18 : idx = 18
  · rw [applyForwardOpH, if_neg h7, if_neg h8, if_pos h18] at hstep
    exact Option.noConfusion hstep
  rw [applyForwardOpH, if_neg h7, if_neg h8, if_neg h18] at hstep
  cases hv : applyForwardOp idx (h.getD r []) params m with
  | none => rw [hv] at hstep; exact Option.noConfusion hstep
  | some v =>
    rw [hv] at hstep
    simp only [Option.map_some'] at hstep
    cases hstep
    refine ⟨fun q hq => getD_set_ne h r v q (by omega), by omega, ?_⟩
    rw [List.length_set]; omega

theorem applyInverseOpH_frame (idx : Nat) (h : Heap) (r : Nat) (params : List Nat)
    (m : Manifest) (n : Nat) (h2 : Heap) (r2 : Nat) (hn : n ≤ r) (hlen : n ≤ h.length)
    (hstep : applyInverseOpH idx h r params m = some (h2, r2)) :
    FrameBelow n h h2 ∧ n ≤ r2 ∧ n ≤ h2.length := by
  by_cases h7 : idx = 7
  · rw [applyInverseOpH, if_pos h7] at hstep
    cases hstep
    refine ⟨fun q hq => getD_append_single h _ q (by omega), by omega, ?_⟩
    rw [List.length_append]; omega
  by_cases h8 : idx = 8
  · rw [applyInverseOpH, if_neg h7, if_pos h8] at hstep
    cases hv : fromHexBytes (h.getD r []) with
    | none => rw [hv] at hstep; exact Option.noConfusion hstep
    | some v =>
      rw [hv] at hstep
      simp only [Option.map_some'] at hstep
      cases hstep
      refine ⟨fun q hq => getD_append_single h _ q (by omega), by omega, ?_⟩
      rw [List.length_append]; omega
  by_cases h18 : idx = 18
  · rw [applyInverseOpH, if_neg h7, if_neg h8, if_pos h18] at hstep
    exact Option.noConfusion hstep
  rw [applyInverseOpH, if_neg h7, if_neg h8, if_neg h18] at hstep
  cases hv : applyInverseOp idx (h.getD r []) params m with
  | none => rw [hv] at hstep; exact Option.noConfusion hstep
  | some v =>
    rw [hv] at hstep
    simp only [Option.map_some'] at hstep
    cases hstep
    refine ⟨fun q hq => getD_set_ne h r v q (by omega), by omega, ?_⟩
    rw [List.length_set]; omega

end HeapLemmas

section HeapStepLemmas

theorem runStepH_some (m : Manifest) (o : EncOp) (hr : Heap × Nat) (idx : Nat)
    (hl : lookupIdx m o.op = some idx) :
    runStepH m hr o = (if idx = 255 then some hr
      else (applyForwardOpH idx hr.1 hr.2 o.params m).map
        (fun hr2 => (hr2.1 ++ [hr2.1.getD hr2.2 []], hr2.1.length))) := by
  rw [runStepH, hl]

theorem runStepH_none (m : Manifest) (o : EncOp) (hr : Heap × Nat)
    (hl : lookupIdx m o.op = none) :
    runStepH m hr o = (applyForwardOpH 255 hr.1 hr.2 o.params m).map
      (fun hr2 => (hr2.1 ++ [hr2.1.getD hr2.2 []], hr2.1.length)) := by
  rw [runStepH, hl]

theorem encodeStepH_some (m : Manifest) (o : EncOp) (hr : Heap × Nat) (idx : Nat)
    (hl : lookupIdx m o.op = some idx) :
    encodeStepH m hr o = (if idx = 255 then some hr
      else (applyInverseOpH idx hr.1 hr.2 o.params m).map
        (fun hr2 => (hr2.1 ++ [hr2.1.getD hr2.2 []], hr2.1.length))) := by
  rw [encodeStepH, hl]

theorem encodeStepH_none (m : Manifest) (o : EncOp) (hr : Heap × Nat)
    (hl : lookupIdx m o.op = none) :
    encodeStepH m hr o = (applyInverseOpH 255 hr.1 hr.2 o.params m).map
      (fun hr2 => (hr2.1 ++ [hr2.1.getD hr2.2 []], hr2.1.length)) := by
  rw [encodeStepH, hl]

theorem runStepH_frame (m : Manifest) (o : EncOp) (h : Heap) (r n : Nat)
    (hn : n ≤ r) (hlen : n ≤ h.length) (h2 : Heap) (r2 : Nat)
    (hstep : runStepH m (h, r) o = some (h2, r2)) :
    FrameBelow n h h2 ∧ n ≤ r2 ∧ n ≤ h2.length := by
  cases hl : lookupIdx m o.op with
  | some idx =>
    rw [runStepH_some m o (h, r) idx hl] at hstep
    by_cases h255 : idx = 255
    · rw [if_pos h255] at hstep
      cases hstep
      exact ⟨fun q hq => rfl, hn, hlen⟩
    · rw [if_neg h255] at hstep
      cases hv : applyForwardOpH idx h r o.params m with
      | none => rw [hv] at hstep; exact Option.noConfusion hstep
      | some p =>
        rw [hv] at hstep
        simp only [Option.map_some'] at hstep
        cases hstep
        obtain ⟨hf, hr1, hl1⟩ := applyForwardOpH_frame idx h r o.params m n p.1 p.2 hn hlen
          (by rw [hv])
        refine ⟨fun q hq => (getD_append_single p.1 _ q (by omega)).trans (hf q hq), by omega, ?_⟩
        rw [List.length_append]; omega
  | none =>
    rw [runStepH_none m o (h, r) hl] at hstep
    cases hv : applyForwardOpH 255 h r o.params m with
    | none => rw [hv] at hstep; exact Option.noConfusion hstep
    | some p =>
      rw [hv] at hstep
      simp only [Option.map_some'] at hstep
      cases hstep
      obtain ⟨hf, hr1, hl1⟩ := applyForwardOpH_frame 255 h r o.params m n p.1 p.2 hn hlen
        (by rw [hv])
      refine ⟨fun q hq => (getD_append_single p.1 _ q (by omega)).trans (hf q hq), by omega, ?_⟩
      rw [List.length_append]; omega

theorem encodeStepH_frame (m : Manifest) (o : EncOp) (h : Heap) (r n : Nat)
    (hn : n ≤ r) (hlen : n ≤ h.length) (h2 : Heap) (r2 : Nat)
    (hstep : encodeStepH m (h, r) o = some (h2, r2)) :
    FrameBelow n h h2 ∧ n ≤ r2 ∧ n ≤ h2.length := by
  cases hl : lookupIdx m o.op with
  | some idx =>
    rw [encodeStepH_some m o (h, r) idx hl] at hstep
    by_cases h255 : idx = 255
    · rw [if_pos h255] at hstep
      cases hstep
      exact ⟨fun q hq => rfl, hn, hlen⟩
    · rw [if_neg h255] at hstep
      cases hv : applyInverseOpH idx h r o.params m with
      | none => rw [hv] at hstep; exact Option.noConfusion hstep
      | some p =>
        rw [hv] at hstep
        simp only [Option.map_some'] at hstep
        cases hstep
        obtain ⟨hf, hr1, hl1⟩ := applyInverseOpH_frame idx h r o.params m n p.1 p.2 hn hlen
          (by rw [hv])
        refine ⟨fun q hq => (getD_append_single p.1 _ q (by omega)).trans (hf q hq), by omega, ?_⟩
        rw [List.length_append]; omega
  | none =>
    rw [encodeStepH_none m o (h, r) hl] at hstep
    cases hv : applyInverseOpH 255 h r o.params m with
    | none => rw [hv] at hstep; exact Option.noConfusion hstep
    | some p =>
      rw [hv] at hstep
      simp only [Option.map_some'] at hstep
      cases hstep
      obtain ⟨hf, hr1, hl1⟩ := applyInverseOpH_frame 255 h r o.params m n p.1 p.2 hn hlen
        (by rw [hv])
      refine ⟨fun q hq => (getD_append_single p.1 _ q (by omega)).trans (hf q hq), by omega, ?_⟩
      rw [List.length_append]; omega

theorem foldlM_frame (step : Heap × Nat → EncOp → Option (Heap × Nat))
    (hstep : ∀ o h r n h2 r2, n ≤ r → n ≤ h.length → step (h, r) o = some (h2, r2) →
      FrameBelow n h h2 ∧ n ≤ r2 ∧ n ≤ h2.length) :
    ∀ (ops : List EncOp) (h : Heap) (r n : Nat) (h2 : Heap) (r2 : Nat), n ≤ r → n ≤ h.length →
      ops.foldlM step (h, r) = some (h2, r2) →
      FrameBelow n h h2 ∧ n ≤ r2 ∧ n ≤ h2.length := by
  intro ops
  induction ops with
  | nil =>
    intro h r n h2 r2 hn hlen hfold
    simp only [List.foldlM_nil] at hfold
    cases hfold
    exact ⟨fun q hq => rfl, hn, hlen⟩
  | cons o rest ih =>
    intro h r n h2 r2 hn hlen hfold
    rw [List.foldlM_cons] at hfold
    cases hv : step (h, r) o with
    | none => rw [hv] at hfold; exact Option.noConfusion hfold
    | some p =>
      rw [hv] at hfold
      simp only [Option.bind_eq_bind, Option.some_bind] at hfold
      obtain ⟨hf1, hr1, hl1⟩ := hstep o h r n p.1 p.2 hn hlen hv
      obtain ⟨hf2, hr2b, hl2⟩ := ih p.1 p.2 n h2 r2 hr1 hl1 hfold
      exact ⟨frameBelow_trans n h p.1 h2 hf1 hf2, hr2b, hl2⟩

end HeapStepLemmas

/-- C10. `run` and `encode` never modify any pre-existing buffer — in
particular the caller's argument buffer at any reference `rIn < h.length`
is byte-identical before and after either call — and each returns a
reference allocated during the call (an index at or beyond the old heap
end), never a pre-existing buffer. -/
theorem C10_run_encode_frame (h : Heap) (rIn : Nat) (ops : List EncOp) (m : Manifest)
    (hf : Heap) (ro : Nat) (g : Heap) (sIn : Nat) (gf : Heap) (so : Nat)
    (hrun : runH h rIn ops m = some (hf, ro))
    (henc : encodeH g sIn ops m = some (gf, so)) :
    ((∀ q, q < h.length → hf.getD q [] = h.getD q []) ∧ h.length ≤ ro) ∧
    ((∀ q, q < g.length → gf.getD q [] = g.getD q []) ∧ g.length ≤ so) := by
  constructor
  · rw [runH] at hrun
    obtain ⟨hfr, hro, _⟩ := foldlM_frame (fun hr o => runStepH m hr o)
      (fun o hh rr nn hh2 rr2 a b c => runStepH_frame m o hh rr nn a b hh2 rr2 c)
      ops (h ++ [h.getD rIn []]) h.length h.length hf ro le_rfl
      (by rw [List.length_append]; omega) hrun
    exact ⟨fun q hq => (hfr q hq).trans (getD_append_single h _ q hq), hro⟩
  · rw [encodeH] at henc
    obtain ⟨hfr, hso, _⟩ := foldlM_frame (fun hr o => encodeStepH m hr o)
      (fun o hh rr nn hh2 rr2 a b c => encodeStepH_frame m o hh rr nn a b hh2 rr2 c)
      ops.reverse (g ++ [g.getD sIn []]) g.length g.length gf so le_rfl
      (by rw [List.length_append]; omega) henc
    exact ⟨fun q hq => (hfr q hq).trans (getD_append_single g _ q hq), hso⟩

/-- Witness for C10: a one-buffer heap, one reverse op forward and one
inverse; the original buffer at reference 0 is untouched and the returned
reference is fresh. -/
theorem C10_run_encode_frame_witness :
    runH [[1, 2, 3, 4]] 0 [⟨0, [7]⟩] mSwap15 =
      some ([[1, 2, 3, 4], [4, 3, 2, 1], [4, 3, 2, 1]], 2) ∧
    encodeH [[15, 2, 3, 4]] 0 [⟨0, [7]⟩] mSwap15 =
      some ([[15, 2, 3, 4], [4, 3, 2, 15], [4, 3, 2, 15]], 2) ∧
    (((∀ q, q < 1 → [[1, 2, 3, 4], [4, 3, 2, 1], [4, 3, 2, 1]].getD q [] =
        [[1, 2, 3, 4]].getD q []) ∧ 1 ≤ 2) ∧
      ((∀ q, q < 1 → [[15, 2, 3, 4], [4, 3, 2, 15], [4, 3, 2, 15]].getD q [] =
        [[15, 2, 3, 4]].getD q []) ∧ 1 ≤ 2)) := by
  refine ⟨by decide, by decide, ?_⟩
  exact C10_run_encode_frame [[1, 2, 3, 4]] 0 [⟨0, [7]⟩] mSwap15 _ 2 [[15, 2, 3, 4]] 0 _ 2
    (by decide) (by decide)

/-- The 19 canonical VM action names, in action-index order. -/
def Actions : List String :=
  ["vm_apply", "vm_apply_inv", "xor_buf", "xor_inplace", "crc32", "adler32",
   "xor_checksum", "to_hex", "from_hex", "read_u32be", "write_u32be", "read_u32le",
   "write_u32le", "rotl32", "rotr32", "swap32", "get_bit", "set_bit", "chacha_decrypt"]

/-- Rejection-sampled uniform index in `[0, maxExclusive)`. The RNG is a
stream of u32 draws `rng k`; `k` is the stream position; the recursion is
fuelled because the rejection loop has no static bound. Returns the index
and the new stream position. -/
def SecureRandomIndex (rng : Nat → Nat) (maxExclusive : Nat) : Nat → Nat → Option (Nat × Nat)
  | _, 0 => none
  | k, fuel + 1 =>
    if maxExclusive ≤ 1 then some (0, k)
    else
      let r := rng k % 4294967296
      if r < 4294967295 - 4294967295 % maxExclusive then some (r % maxExclusive, k + 1)
      else SecureRandomIndex rng maxExclusive (k + 1) fuel

/-- `(arr[i], arr[j]) = (arr[j], arr[i])` on a list (identity off-range). -/
def listSwap (l : List Nat) (i j : Nat) : List Nat :=
  if i < l.length ∧ j < l.length then (l.set i (l.getD j 0)).set j (l.getD i 0) else l

/-- Fisher–Yates loop body, `i` counting down from `arr.length - 1` to 1. -/
def SecureShuffleGo (rng : Nat → Nat) (fuel : Nat) : Nat → List Nat → Nat → Option (List Nat × Nat)
  | 0, arr, k => some (arr, k)
  | i + 1, arr, k =>
    match SecureRandomIndex rng (i + 2) k fuel with
    | none => none
    | some (j, k2) => SecureShuffleGo rng fuel i (listSwap arr (i + 1) j) k2

/-- In-place Fisher–Yates shuffle with cryptographic draws. -/
def SecureShuffle (rng : Nat → Nat) (fuel : Nat) (arr : List Nat) (k : Nat) :
    Option (List Nat × Nat) :=
  match arr.length with
  | 0 => some (arr, k)
  | n + 1 => SecureShuffleGo rng fuel n arr k

/-- `BytecodeGen.Generate`: shuffle 0..255, take the first 19 bytes as the
opcode pool (aborting on a collision), build the opcode→action table
(255 = unassigned), the hex-key→action-name mapping, a second shuffled
permutation `vm` and its inverse `vmInv`. -/
def Generate (rng : Nat → Nat) (fuel : Nat) :
    Option (List Nat × List Nat × List Nat × List (Nat × String)) :=
  match SecureShuffle rng fuel (List.range 256) 0 with
  | none => none
  | some (all, k1) =>
    let pool := all.take 19
    if pool.Nodup then
      let mapping := (List.range 19).map (fun i => (pool.getD i 0, Actions.getD i ""))
      let opcodeAction := (List.range 19).foldl
        (fun oa i => oa.set (pool.getD i 0) i) (List.replicate 256 255)
      match SecureShuffle rng fuel (List.range 256) k1 with
      | none => none
      | some (vm, _) =>
        let vmInv := (List.range 256).foldl
          (fun vi i => vi.set (vm.getD i 0) i) (List.replicate 256 0)
        some (opcodeAction, vm, vmInv, mapping)
    else none

section ShufflePermLemmas

theorem getD_cons_set_perm : ∀ (ys : List Nat) (k : Nat) (y : Nat), k < ys.length →
    List.Perm (ys.getD k 0 :: ys.set k y) (y :: ys) := by
  intro ys
  induction ys with
  | nil => intro k y hk; simp at hk
  | cons z zs ih =>
    intro k y hk
    cases k with
    | zero =>
      rw [List.getD_cons_zero, List.set_cons_zero]
      exact List.Perm.swap y z zs
    | succ k2 =>
      have hk2 : k2 < zs.length := by simpa using hk
      rw [List.getD_cons_succ, List.set_cons_succ]
      exact ((List.Perm.swap z (zs.getD k2 0) (zs.set k2 y)).trans
        ((ih k2 y hk2).cons z)).trans (List.Perm.swap y z zs)

theorem set_set_perm_le : ∀ (l : List Nat) (i j : Nat), i ≤ j → i < l.length → j < l.length →
    List.Perm ((l.set i (l.getD j 0)).set j (l.getD i 0)) l := by
  intro l
  induction l with
  | nil => intro i j _ hi _; simp at hi
  | cons y ys ih =>
    intro i j hij hi hj
    cases i with
    | zero =>
      cases j with
      | zero =>
        simp only [List.getD_cons_zero, List.set_cons_zero]
        exact List.Perm.refl (y :: ys)
      | succ j2 =>
        have hj2 : j2 < ys.length := by simpa using hj
        simp only [List.getD_cons_succ, List.getD_cons_zero, List.set_cons_zero,
          List.set_cons_succ]
        exact getD_cons_set_perm ys j2 y hj2
    | succ i2 =>
      cases j with
      | zero => omega
      | succ j2 =>
        have hi2 : i2 < ys.length := by simpa using hi
        have hj2 : j2 < ys.length := by simpa using hj
        simp only [List.getD_cons_succ, List.set_cons_succ]
        exact (ih i2 j2 (by omega) hi2 hj2).cons y

theorem listSwap_perm (l : List Nat) (i j : Nat) : List.Perm (listSwap l i j) l := by
  unfold listSwap
  by_cases h : i < l.length ∧ j < l.length
  · rw [if_pos h]
    obtain ⟨hi, hj⟩ := h
    by_cases hij : i ≤ j
    · exact set_set_perm_le l i j hij hi hj
    · rw [List.set_comm _ _ _ (by omega)]
      exact set_set_perm_le l j i (by omega) hj hi
  · rw [if_neg h]

theorem SecureShuffleGo_perm (rng : Nat → Nat) (fuel : Nat) :
    ∀ (i : Nat) (arr : List Nat) (k : Nat) (out : List Nat × Nat),
    SecureShuffleGo rng fuel i arr k = some out → List.Perm out.1 arr := by
  intro i
  induction i with
  | zero =>
    intro arr k out h
    have h2 : (arr, k) = out := Option.some.inj h
    rw [← h2]
  | succ i2 ih =>
    intro arr k out h
    rw [show SecureShuffleGo rng fuel (i2 + 1) arr k =
      (match SecureRandomIndex rng (i2 + 2) k fuel with
       | none => none
       | some (j, k2) => SecureShuffleGo rng fuel i2 (listSwap arr (i2 + 1) j) k2) from rfl] at h
    revert h
    cases hs : SecureRandomIndex rng (i2 + 2) k fuel with
    | none => intro h; exact Option.noConfusion h
    | some jk =>
      obtain ⟨j, k2⟩ := jk
      intro h
      exact (ih (listSwap arr (i2 + 1) j) k2 out h).trans (listSwap_perm arr (i2 + 1) j)

theorem SecureShuffle_perm (rng : Nat → Nat) (fuel : Nat) (arr : List Nat) (k : Nat)
    (out : List Nat × Nat) (h : SecureShuffle rng fuel arr k = some out) :
    List.Perm out.1 arr := by
  rw [SecureShuffle] at h
  revert h
  cases hl : arr.length with
  | zero =>
    intro h
    have h2 : (arr, k) = out := Option.some.inj h
    rw [← h2]
  | succ n => intro h; exact SecureShuffleGo_perm rng fuel n arr k out h

end ShufflePermLemmas

section FoldSetLemmas

theorem getD_set_ne_nat (l : List Nat) (r v q : Nat) (hq : q ≠ r) :
    (l.set r v).getD q 0 = l.getD q 0 := by
  simp [List.getD_eq_getElem?_getD, List.getElem?_set_ne (fun he => hq he.symm)]

theorem getD_set_self_nat (l : List Nat) (r v : Nat) (hr : r < l.length) :
    (l.set r v).getD r 0 = v := by
  simp [List.getD_eq_getElem?_getD, List.getElem?_set_self', hr]

theorem getD_mem_nat (l : List Nat) (n d : Nat) (h : n < l.length) : l.getD n d ∈ l := by
  rw [List.getD_eq_getElem?_getD, List.getElem?_eq_getElem h]
  exact List.getElem_mem h

theorem getD_eq_get_nat (l : List Nat) (i d : Nat) (h : i < l.length) :
    l.getD i d = l.get ⟨i, h⟩ := by
  simp [List.getD_eq_getElem?_getD, List.getElem?_eq_getElem h]

theorem nodup_getD_inj (l : List Nat) (hnd : l.Nodup) (i j : Nat)
    (hi : i < l.length) (hj : j < l.length) (h : l.getD i 0 = l.getD j 0) : i = j := by
  rw [getD_eq_get_nat l i 0 hi, getD_eq_get_nat l j 0 hj] at h
  have := (List.Nodup.get_inj_iff hnd).mp h
  exact congrArg Fin.val this

theorem foldl_set_length (g : Nat → Nat) : ∀ (idxs : List Nat) (init : List Nat),
    (idxs.foldl (fun acc i => acc.set (g i) i) init).length = init.length := by
  intro idxs
  induction idxs with
  | nil => intro init; rfl
  | cons a rest ih =>
    intro init
    rw [List.foldl_cons, ih]
    exact List.length_set _ _ _

theorem foldl_set_preserve (g : Nat → Nat) : ∀ (idxs : List Nat) (init : List Nat) (q : Nat),
    (∀ i ∈ idxs, g i ≠ q) →
    (idxs.foldl (fun acc i => acc.set (g i) i) init).getD q 0 = init.getD q 0 := by
  intro idxs
  induction idxs with
  | nil => intro init q _; rfl
  | cons a rest ih =>
    intro init q hne
    rw [List.foldl_cons, ih (init.set (g a) a) q (fun i hi => hne i (by simp [hi]))]
    exact getD_set_ne_nat init (g a) a q (fun he => hne a (by simp) he.symm)

theorem foldl_set_spec (g : Nat → Nat) : ∀ (idxs : List Nat) (init : List Nat),
    idxs.Nodup → (∀ i ∈ idxs, g i < init.length) →
    (∀ i ∈ idxs, ∀ j ∈ idxs, g i = g j → i = j) →
    ∀ i ∈ idxs, (idxs.foldl (fun acc i => acc.set (g i) i) init).getD (g i) 0 = i := by
  intro idxs
  induction idxs with
  | nil => intro init _ _ _ i hi; simp at hi
  | cons a rest ih =>
    intro init hnd hlt hinj i hi
    rw [List.foldl_cons]
    rcases List.mem_cons.mp hi with he | hmem
    · subst he
      have hne : ∀ j ∈ rest, g j ≠ g i := by
        intro j hj hgj
        have hji : j = i := hinj j (by simp [hj]) i (by simp) hgj
        subst hji
        exact (List.nodup_cons.mp hnd).1 hj
      rw [foldl_set_preserve g rest (init.set (g i) i) (g i) hne]
      exact getD_set_self_nat init (g i) i (hlt i (by simp))
    · exact ih (init.set (g a) a) (List.nodup_cons.mp hnd).2
        (fun i2 hi2 => by rw [List.length_set]; exact hlt i2 (by simp [hi2]))
        (fun i2 hi2 j hj h => hinj i2 (by simp [hi2]) j (by simp [hj]) h)
        i hmem

theorem range_length_map_getD (l : List String) (d : String) :
    (List.range l.length).map (fun i => l.getD i d) = l := by
  apply List.ext_getElem (by simp)
  intro i h1 h2
  simp [List.getD_eq_getElem?_getD, List.getElem?_eq_getElem h2]

theorem range_length_map_getD_nat (l : List Nat) (d : Nat) :
    (List.range l.length).map (fun i => l.getD i d) = l := by
  apply List.ext_getElem (by simp)
  intro i h1 h2
  simp [List.getD_eq_getElem?_getD, List.getElem?_eq_getElem h2]

end FoldSetLemmas

set_option maxHeartbeats 1000000 in
/-- C4. Every quadruple returned by BytecodeGen.Generate satisfies:
vmInv[vm[i]] = i for every i in 0..255; exactly 19 opcode bytes have an
opcodeAction entry different from 255; and the mapping assigns each of the
19 canonical action names to exactly one opcode (the values are exactly the
action-name list and the opcode keys are pairwise distinct). -/
theorem C4_generate_invariants (rng : Nat → Nat) (fuel : Nat) (oa vm vmInv : List Nat)
    (mapping : List (Nat × String))
    (hgen : Generate rng fuel = some (oa, vm, vmInv, mapping)) :
    (∀ i, i < 256 → vmInv.getD (vm.getD i 0) 0 = i) ∧
    ((List.range 256).filter (fun b => oa.getD b 0 ≠ 255)).length = 19 ∧
    mapping.map Prod.snd = Actions ∧
    (mapping.map Prod.fst).Nodup := by
  rw [Generate] at hgen
  revert hgen
  cases hsh1 : SecureShuffle rng fuel (List.range 256) 0 with
  | none => intro hgen; exact Option.noConfusion hgen
  | some allk =>
    obtain ⟨all, k1⟩ := allk
    intro hgen
    have hgen2 : (if (all.take 19).Nodup then
        (match SecureShuffle rng fuel (List.range 256) k1 with
         | none => none
         | some (vm2, _) =>
           some ((List.range 19).foldl (fun oa2 i => oa2.set ((all.take 19).getD i 0) i)
               (List.replicate 256 255), vm2,
             (List.range 256).foldl (fun vi i => vi.set (vm2.getD i 0) i)
               (List.replicate 256 0),
             (List.range 19).map (fun i => ((all.take 19).getD i 0, Actions.getD i ""))))
        else none) = some (oa, vm, vmInv, mapping) := hgen
    by_cases hnd : (all.take 19).Nodup
    · rw [if_pos hnd] at hgen2
      revert hgen2
      cases hsh2 : SecureShuffle rng fuel (List.range 256) k1 with
      | none => intro hgen2; exact Option.noConfusion hgen2
      | some vmk =>
        obtain ⟨vm2, k2⟩ := vmk
        intro hgen2
        have hinj2 : ((List.range 19).foldl
              (fun oa2 i => oa2.set ((all.take 19).getD i 0) i)
              (List.replicate 256 255), vm2,
            (List.range 256).foldl (fun vi i => vi.set (vm2.getD i 0) i)
              (List.replicate 256 0),
            (List.range 19).map (fun i => ((all.take 19).getD i 0, Actions.getD i ""))) =
            (oa, vm, vmInv, mapping) := Option.some.inj hgen2
        rw [Prod.mk.injEq, Prod.mk.injEq, Prod.mk.injEq] at hinj2
        obtain ⟨hoa, hvm, hvi, hmap⟩ := hinj2
        subst hoa; subst hvm; subst hvi; subst hmap
        have hperm1 : List.Perm all (List.range 256) :=
          SecureShuffle_perm rng fuel (List.range 256) 0 (all, k1) hsh1
        have hperm2 : List.Perm vm2 (List.range 256) :=
          SecureShuffle_perm rng fuel (List.range 256) k1 (vm2, k2) hsh2
        have hallLen : all.length = 256 := by rw [hperm1.length_eq]; simp
        have hvmLen : vm2.length = 256 := by rw [hperm2.length_eq]; simp
        have hvmNd : vm2.Nodup := hperm2.nodup_iff.mpr (List.nodup_range 256)
        have hvmLt : ∀ x ∈ vm2, x < 256 := fun x hx =>
          List.mem_range.mp (hperm2.mem_iff.mp hx)
        have hpoolLen : (all.take 19).length = 19 := by
          rw [List.length_take, hallLen]
          omega
        have hpoolLt : ∀ x ∈ all.take 19, x < 256 := fun x hx =>
          List.mem_range.mp (hperm1.mem_iff.mp (List.take_subset 19 all hx))
        refine ⟨?_, ?_, ?_, ?_⟩
        · intro i hi
          exact foldl_set_spec (fun j => vm2.getD j 0) (List.range 256)
            (List.replicate 256 0) (List.nodup_range 256)
            (fun j hj => by
              rw [List.length_replicate]
              exact hvmLt _ (getD_mem_nat vm2 j 0 (by
                rw [hvmLen]; exact List.mem_range.mp hj)))
            (fun a ha b hb h => nodup_getD_inj vm2 hvmNd a b
              (by rw [hvmLen]; exact List.mem_range.mp ha)
              (by rw [hvmLen]; exact List.mem_range.mp hb) h)
            i (List.mem_range.mpr hi)
        · have hchar : ∀ b ∈ List.range 256,
              (decide (((List.range 19).foldl
                (fun oa2 i => oa2.set ((all.take 19).getD i 0) i)
                (List.replicate 256 255)).getD b 0 ≠ 255)) =
              (decide (b ∈ all.take 19)) := by
            intro b hb
            have hb2 : b < 256 := List.mem_range.mp hb
            by_cases hbp : b ∈ all.take 19
            · obtain ⟨n, hn, hgetb⟩ := List.getElem_of_mem hbp
              have hgd : (all.take 19).getD n 0 = b := by
                rw [getD_eq_get_nat (all.take 19) n 0 hn]
                exact hgetb
              have hn19 : n < 19 := by rw [← hpoolLen]; exact hn
              have hspec := foldl_set_spec (fun i => (all.take 19).getD i 0)
                (List.range 19) (List.replicate 256 255) (List.nodup_range 19)
                (fun j hj => by
                  rw [List.length_replicate]
                  exact hpoolLt _ (getD_mem_nat (all.take 19) j 0 (by
                    rw [hpoolLen]; exact List.mem_range.mp hj)))
                (fun a ha c hc h => nodup_getD_inj (all.take 19) hnd a c
                  (by rw [hpoolLen]; exact List.mem_range.mp ha)
                  (by rw [hpoolLen]; exact List.mem_range.mp hc) h)
                n (List.mem_range.mpr hn19)
              have hspec2 : ((List.range 19).foldl
                  (fun oa2 i => oa2.set ((all.take 19).getD i 0) i)
                  (List.replicate 256 255)).getD ((all.take 19).getD n 0) 0 = n := hspec
              rw [hgd] at hspec2
              have hne255 : n ≠ 255 := by omega
              rw [hspec2]
              simp [hbp, hne255]
            · have hpres := foldl_set_preserve (fun i => (all.take 19).getD i 0)
                (List.range 19) (List.replicate 256 255) b
                (fun j hj he => hbp (he ▸ getD_mem_nat (all.take 19) j 0 (by
                  rw [hpoolLen]; exact List.mem_range.mp hj)))
              have hpres2 : ((List.range 19).foldl
                  (fun oa2 i => oa2.set ((all.take 19).getD i 0) i)
                  (List.replicate 256 255)).getD b 0 =
                  (List.replicate 256 255).getD b 0 := hpres
              have hrep : (List.replicate 256 (255 : Nat)).getD b 0 = 255 := by
                rw [List.getD_eq_getElem?_getD, List.getElem?_replicate, if_pos hb2]
                rfl
              rw [hpres2, hrep]
              simp [hbp]
          rw [List.filter_congr hchar]
          have hpermF : List.Perm
              ((List.range 256).filter (fun b => decide (b ∈ all.take 19)))
              (all.take 19) :=
            (List.perm_ext_iff_of_nodup
              (List.Nodup.filter _ (List.nodup_range 256)) hnd).mpr
              (fun a => by
                simp only [List.mem_filter, List.mem_range, decide_eq_true_eq]
                exact ⟨fun h => h.2, fun h => ⟨hpoolLt a h, h⟩⟩)
          rw [hpermF.length_eq, hpoolLen]
        · rw [List.map_map]
          show (List.range Actions.length).map (fun i => Actions.getD i "") = Actions
          exact range_length_map_getD Actions ""
        · rw [List.map_map]
          have hbase := range_length_map_getD_nat (all.take 19) 0
          rw [hpoolLen] at hbase
          show ((List.range 19).map (fun i => (all.take 19).getD i 0)).Nodup
          rw [hbase]
          exact hnd
    · rw [if_neg hnd] at hgen2
      exact Option.noConfusion hgen2


/-- Draw stream making every Fisher–Yates step swap an element with itself:
the first 255 draws serve the first shuffle, the next 255 the second. -/
def rngW (k : Nat) : Nat := if k < 255 then 255 - k else 510 - k

/-- Generate output for `rngW`: the identity shuffles leave 0..255 in place,
so the opcode pool is 0..18 and both permutations are the identity. -/
def oaW : List Nat := [0, 1, 2, 3, 4, 5, 6, 7, 8, 9, 10, 11, 12, 13, 14, 15, 16, 17, 18, 255, 255, 255, 255, 255, 255, 255, 255, 255, 255, 255, 255, 255, 255, 255, 255, 255, 255, 255, 255, 255, 255, 255, 255, 255, 255, 255, 255, 255, 255, 255, 255, 255, 255, 255, 255, 255, 255, 255, 255, 255, 255, 255, 255, 255, 255, 255, 255, 255, 255, 255, 255, 255, 255, 255, 255, 255, 255, 255, 255, 255, 255, 255, 255, 255, 255, 255, 255, 255, 255, 255, 255, 255, 255, 255, 255, 255, 255, 255, 255, 255, 255, 255, 255, 255, 255, 255, 255, 255, 255, 255, 255, 255, 255, 255, 255, 255, 255, 255, 255, 255, 255, 255, 255, 255, 255, 255, 255, 255, 255, 255, 255, 255, 255, 255, 255, 255, 255, 255, 255, 255, 255, 255, 255, 255, 255, 255, 255, 255, 255, 255, 255, 255, 255, 255, 255, 255, 255, 255, 255, 255, 255, 255, 255, 255, 255, 255, 255, 255, 255, 255, 255, 255, 255, 255, 255, 255, 255, 255, 255, 255, 255, 255, 255, 255, 255, 255, 255, 255, 255, 255, 255, 255, 255, 255, 255, 255, 255, 255, 255, 255, 255, 255, 255, 255, 255, 255, 255, 255, 255, 255, 255, 255, 255, 255, 255, 255, 255, 255, 255, 255, 255, 255, 255, 255, 255, 255, 255, 255, 255, 255, 255, 255, 255, 255, 255, 255, 255, 255, 255, 255, 255, 255, 255, 255, 255, 255, 255, 255, 255, 255, 255, 255, 255, 255, 255, 255]

/-- vm permutation produced under `rngW` (the identity). -/
def vmW : List Nat := List.range 256

/-- Inverse permutation produced under `rngW` (the identity). -/
def vmInvW : List Nat := List.range 256

/-- Opcode-to-action mapping produced under `rngW`. -/
def mapW : List (Nat × String) := [(0, "vm_apply"), (1, "vm_apply_inv"), (2, "xor_buf"), (3, "xor_inplace"), (4, "crc32"), (5, "adler32"), (6, "xor_checksum"), (7, "to_hex"), (8, "from_hex"), (9, "read_u32be"), (10, "write_u32be"), (11, "read_u32le"), (12, "write_u32le"), (13, "rotl32"), (14, "rotr32"), (15, "swap32"), (16, "get_bit"), (17, "set_bit"), (18, "chacha_decrypt")]

theorem set_getD_self_all (l : List Nat) : ∀ n : Nat, l.set n (l.getD n 0) = l := by
  induction l with
  | nil => intro n; rfl
  | cons a t ih =>
    intro n
    cases n with
    | zero => rfl
    | succ n2 => rw [List.getD_cons_succ, List.set_cons_succ, ih n2]

theorem listSwap_self (arr : List Nat) (m : Nat) (h : m < arr.length) :
    listSwap arr m m = arr := by
  unfold listSwap
  rw [if_pos ⟨h, h⟩, List.set_set]
  exact set_getD_self_all arr m

/-- An identity run of the Fisher–Yates loop: if at every step the drawn
index equals the loop index, the array is returned unchanged and exactly
`i` draws are consumed. -/
theorem shuffleGo_id (rng : Nat → Nat) : ∀ (i : Nat), i ≤ 255 → ∀ (arr : List Nat) (k : Nat),
    i < arr.length →
    (∀ m : Nat, 1 ≤ m → m ≤ i → rng (k + (i - m)) % 4294967296 = m) →
    SecureShuffleGo rng 1 i arr k = some (arr, k + i) := by
  intro i
  induction i with
  | zero => intro _ arr k _ _; rfl
  | succ i2 ih =>
    intro hle arr k hlen hr
    have hrk : rng k % 4294967296 = i2 + 1 := by
      have h0 := hr (i2 + 1) (by omega) (by omega)
      simpa using h0
    have hmod : 4294967295 % (i2 + 2) ≤ i2 + 1 := by
      have := Nat.mod_lt 4294967295 (show 0 < i2 + 2 by omega)
      omega
    have hsri : SecureRandomIndex rng (i2 + 2) k 1 = some (i2 + 1, k + 1) := by
      show (if i2 + 2 ≤ 1 then some (0, k) else
        if rng k % 4294967296 < 4294967295 - 4294967295 % (i2 + 2) then
          some (rng k % 4294967296 % (i2 + 2), k + 1)
        else SecureRandomIndex rng (i2 + 2) (k + 1) 0) = some (i2 + 1, k + 1)
      rw [hrk, if_neg (by omega), if_pos (by omega), Nat.mod_eq_of_lt (by omega)]
    rw [show SecureShuffleGo rng 1 (i2 + 1) arr k =
      (match SecureRandomIndex rng (i2 + 2) k 1 with
       | none => none
       | some (j, k2) => SecureShuffleGo rng 1 i2 (listSwap arr (i2 + 1) j) k2) from rfl]
    rw [hsri]
    show SecureShuffleGo rng 1 i2 (listSwap arr (i2 + 1) (i2 + 1)) (k + 1) =
      some (arr, k + (i2 + 1))
    rw [listSwap_self arr (i2 + 1) hlen]
    have hres := ih (by omega) arr (k + 1) (by omega)
      (fun m h1 h2 => by
        have h3 := hr m h1 (by omega)
        have heq : k + (i2 + 1 - m) = k + 1 + (i2 - m) := by omega
        rw [heq] at h3
        exact h3)
    rw [hres]
    have : k + 1 + i2 = k + (i2 + 1) := by omega
    rw [this]

set_option maxHeartbeats 1000000 in
/-- Witness for C4 at the identity-swap draw stream `rngW` with fuel 1. -/
theorem C4_generate_invariants_witness :
    Generate rngW 1 = some (oaW, vmW, vmInvW, mapW) ∧
    ((∀ i, i < 256 → vmInvW.getD (vmW.getD i 0) 0 = i) ∧
     ((List.range 256).filter (fun b => oaW.getD b 0 ≠ 255)).length = 19 ∧
     mapW.map Prod.snd = Actions ∧
     (mapW.map Prod.fst).Nodup) := by
  have hg1 : SecureShuffle rngW 1 (List.range 256) 0 = some (List.range 256, 255) := by
    show SecureShuffleGo rngW 1 255 (List.range 256) 0 = some (List.range 256, 255)
    have hres := shuffleGo_id rngW 255 (by omega) (List.range 256) 0 (by simp)
      (fun m h1 h2 => by
        show (if 0 + (255 - m) < 255 then 255 - (0 + (255 - m))
          else 510 - (0 + (255 - m))) % 4294967296 = m
        rw [if_pos (by omega)]
        omega)
    exact hres
  have hg2 : SecureShuffle rngW 1 (List.range 256) 255 = some (List.range 256, 510) := by
    show SecureShuffleGo rngW 1 255 (List.range 256) 255 = some (List.range 256, 510)
    have hres := shuffleGo_id rngW 255 (by omega) (List.range 256) 255 (by simp)
      (fun m h1 h2 => by
        show (if 255 + (255 - m) < 255 then 255 - (255 + (255 - m))
          else 510 - (255 + (255 - m))) % 4294967296 = m
        rw [if_neg (by omega)]
        omega)
    exact hres
  have hgen : Generate rngW 1 = some (oaW, vmW, vmInvW, mapW) := by
    rw [Generate, hg1]
    show (if ((List.range 256).take 19).Nodup then
        (match SecureShuffle rngW 1 (List.range 256) 255 with
         | none => none
         | some (vm2, _) =>
           some ((List.range 19).foldl
               (fun oa2 i => oa2.set (((List.range 256).take 19).getD i 0) i)
               (List.replicate 256 255), vm2,
             (List.range 256).foldl (fun vi i => vi.set (vm2.getD i 0) i)
               (List.replicate 256 0),
             (List.range 19).map
               (fun i => (((List.range 256).take 19).getD i 0, Actions.getD i ""))))
        else none) = some (oaW, vmW, vmInvW, mapW)
    rw [if_pos (by decide), hg2]
    decide
  exact ⟨hgen, C4_generate_invariants rngW 1 oaW vmW vmInvW mapW hgen⟩

/-- JS `secureRandomInt`: rejection-sampled uniform integer in
`[0, maxExclusive)` over a u32 draw stream, fuelled like the C# variant. -/
def secureRandomInt (rng : Nat → Nat) (maxExclusive : Nat) : Nat → Nat → Option (Nat × Nat)
  | _, 0 => none
  | k, fuel + 1 =>
    if maxExclusive ≤ 1 then some (0, k)
    else
      let r := rng k % 4294967296
      if r < 4294967295 - 4294967295 % maxExclusive then some (r % maxExclusive, k + 1)
      else secureRandomInt rng maxExclusive (k + 1) fuel

/-- Admissibility filter of the challenge builder: opcode at most 255 whose
action index is assigned (not 255) and not decrypt (18) nor hex (7, 8);
an index read beyond the table (undefined in JS) fails none of the guards. -/
def admissible (m : Manifest) (op : Nat) : Bool :=
  if 255 < op then false
  else match m.opcode_action[op]? with
    | some idx => decide (idx ≠ 255 ∧ idx ≠ 18 ∧ idx ≠ 7 ∧ idx ≠ 8)
    | none => true

/-- The layer-size loop (`numLayers - 1` iterations, counted down by `t`):
each layer gets `1 + draw` ops, capped to leave one op per later layer;
returns the sizes, the leftover op count and the stream position. -/
def layerSizesGo (rng : Nat → Nat) (fuel : Nat) : Nat → Nat → Nat → Option (List Nat × Nat × Nat)
  | 0, remaining, k => some ([], remaining, k)
  | t + 1, remaining, k =>
    let maxForLayer := max 1 (remaining - (t + 1))
    let range := max 0 (maxForLayer - 1 + 1)
    match (if 0 < range then secureRandomInt rng range k fuel else some (0, k)) with
    | none => none
    | some (d, k2) =>
      let pushed := min (1 + d) remaining
      match layerSizesGo rng fuel t (remaining - pushed) k2 with
      | none => none
      | some (rest, remFinal, k3) => some (pushed :: rest, remFinal, k3)

/-- Partition `numOps` into `numLayers` layer sizes (final layer takes the
rest, forced to at least 1). -/
def buildLayerSizes (rng : Nat → Nat) (fuel numOps numLayers k : Nat) :
    Option (List Nat × Nat) :=
  match layerSizesGo rng fuel (numLayers - 1) numOps k with
  | none => none
  | some (sizes, remaining, k2) => some (sizes ++ [max 1 remaining], k2)

/-- Fill one layer with `n` random (opcode, params) pairs: opcode drawn from
`opcodeBytes`, params length drawn in [0, 8), param bytes taken from the
byte stream `rb` at position `p`. -/
def buildOpsGo (rng rb : Nat → Nat) (fuel : Nat) (opcodeBytes : List Nat) :
    Nat → Nat → Nat → Option (List EncOp × Nat × Nat)
  | 0, k, p => some ([], k, p)
  | n + 1, k, p =>
    match secureRandomInt rng opcodeBytes.length k fuel with
    | none => none
    | some (idx, k2) =>
      match secureRandomInt rng 8 k2 fuel with
      | none => none
      | some (paramLen, k3) =>
        match buildOpsGo rng rb fuel opcodeBytes n k3 (p + paramLen) with
        | none => none
        | some (rest, k4, p2) =>
          some (⟨opcodeBytes.getD idx 0,
            (List.range paramLen).map (fun i => rb (p + i) % 256)⟩ :: rest, k4, p2)

/-- Swap two operations in place (identity off-range). -/
def listSwapOps (l : List EncOp) (i j : Nat) : List EncOp :=
  if i < l.length ∧ j < l.length then
    (l.set i (l.getD j ⟨0, []⟩)).set j (l.getD i ⟨0, []⟩)
  else l

/-- The JS in-layer `secureShuffle` loop: unbiased-looking modulo draw
`r % (i + 1)` per index, no rejection. -/
def shuffleOpsGo (rng : Nat → Nat) : Nat → List EncOp → Nat → List EncOp × Nat
  | 0, arr, k => (arr, k)
  | i + 1, arr, k =>
    shuffleOpsGo rng i (listSwapOps arr (i + 1) (rng k % 4294967296 % (i + 2))) (k + 1)

/-- JS `secureShuffle` on an operation layer. -/
def shuffleOps (rng : Nat → Nat) (arr : List EncOp) (k : Nat) : List EncOp × Nat :=
  match arr.length with
  | 0 => (arr, k)
  | n + 1 => shuffleOpsGo rng n arr k

/-- Build, shuffle and concatenate all layers. -/
def buildLayersGo (rng rb : Nat → Nat) (fuel : Nat) (opcodeBytes : List Nat) :
    List Nat → Nat → Nat → Option (List EncOp × Nat × Nat)
  | [], k, p => some ([], k, p)
  | s :: rest, k, p =>
    match buildOpsGo rng rb fuel opcodeBytes s k p with
    | none => none
    | some (layerOps, k2, p2) =>
      match buildLayersGo rng rb fuel opcodeBytes rest (shuffleOps rng layerOps k2).2 p2 with
      | none => none
      | some (ops, k4, p3) => some ((shuffleOps rng layerOps k2).1 ++ ops, k4, p3)

/-- The operation-building part of `createFullChallenge`: filter the
manifest's mapping opcodes to the admissible ones (falling back to all of
them when none survives), draw `numOps` in [8, 15] and `numLayers` in
[2, 5], partition into layer sizes, and fill and shuffle each layer. -/
def buildOperations (rng rb : Nat → Nat) (fuel : Nat) (m : Manifest)
    (mappingKeys : List Nat) (k p : Nat) :
    Option (List EncOp × Nat × Nat × List Nat) :=
  let filtered := mappingKeys.filter (admissible m)
  let opcodeBytes := if filtered.length = 0 then mappingKeys else filtered
  match secureRandomInt rng 8 k fuel with
  | none => none
  | some (d1, k1) =>
    match secureRandomInt rng 4 k1 fuel with
    | none => none
    | some (d2, k2) =>
      match buildLayerSizes rng fuel (8 + d1) (2 + d2) k2 with
      | none => none
      | some (sizes, k3) =>
        match buildLayersGo rng rb fuel opcodeBytes sizes k3 p with
        | none => none
        | some (ops, _, _) => some (ops, 8 + d1, 2 + d2, sizes)

section BuilderLemmas

theorem secureRandomInt_lt (rng : Nat → Nat) (maxE : Nat) :
    ∀ (fuel k j k2 : Nat), 1 ≤ maxE →
    secureRandomInt rng maxE k fuel = some (j, k2) → j < maxE := by
  intro fuel
  induction fuel with
  | zero => intro k j k2 _ h; exact Option.noConfusion h
  | succ f ih =>
    intro k j k2 h1 h
    have h2 : (if maxE ≤ 1 then some (0, k) else
        if rng k % 4294967296 < 4294967295 - 4294967295 % maxE then
          some (rng k % 4294967296 % maxE, k + 1)
        else secureRandomInt rng maxE (k + 1) f) = some (j, k2) := h
    by_cases hm : maxE ≤ 1
    · rw [if_pos hm] at h2
      have h3 := Option.some.inj h2
      have hj : j = 0 := (congrArg Prod.fst h3).symm
      omega
    · rw [if_neg hm] at h2
      by_cases hacc : rng k % 4294967296 < 4294967295 - 4294967295 % maxE
      · rw [if_pos hacc] at h2
        have h3 := Option.some.inj h2
        have hj : j = rng k % 4294967296 % maxE := (congrArg Prod.fst h3).symm
        rw [hj]
        exact Nat.mod_lt _ (by omega)
      · rw [if_neg hacc] at h2
        exact ih (k + 1) j k2 h1 h2

theorem layerSizesGo_spec (rng : Nat → Nat) (fuel : Nat) : ∀ (t remaining k : Nat)
    (sizes : List Nat) (rem2 k2 : Nat),
    layerSizesGo rng fuel t remaining k = some (sizes, rem2, k2) →
    t + 1 ≤ remaining →
    sizes.length = t ∧ (∀ s ∈ sizes, 1 ≤ s) ∧ sizes.sum + rem2 = remaining ∧ 1 ≤ rem2 := by
  intro t
  induction t with
  | zero =>
    intro remaining k sizes rem2 k2 h hrem
    have h3 : (([], remaining, k) : List Nat × Nat × Nat) = (sizes, rem2, k2) :=
      Option.some.inj h
    have hs : sizes = [] := (congrArg (fun x => x.1) h3).symm
    have hr : rem2 = remaining := (congrArg (fun x => x.2.1) h3).symm
    subst hs; subst hr
    exact ⟨rfl, by simp, by simp, by omega⟩
  | succ t2 ih =>
    intro remaining k sizes rem2 k2 h hrem
    have h2 : (match (if 0 < max 0 (max 1 (remaining - (t2 + 1)) - 1 + 1) then
          secureRandomInt rng (max 0 (max 1 (remaining - (t2 + 1)) - 1 + 1)) k fuel
        else some (0, k)) with
      | none => none
      | some (d, k3) =>
        match layerSizesGo rng fuel t2 (remaining - min (1 + d) remaining) k3 with
        | none => none
        | some (rest, remFinal, k4) =>
          some (min (1 + d) remaining :: rest, remFinal, k4)) = some (sizes, rem2, k2) := h
    have hR : max 0 (max 1 (remaining - (t2 + 1)) - 1 + 1) = remaining - (t2 + 1) := by
      omega
    rw [hR] at h2
    rw [if_pos (by omega)] at h2
    revert h2
    cases hs1 : secureRandomInt rng (remaining - (t2 + 1)) k fuel with
    | none => intro h2; exact Option.noConfusion h2
    | some dk =>
      obtain ⟨d, k3⟩ := dk
      intro h2
      have hd : d < remaining - (t2 + 1) :=
        secureRandomInt_lt rng (remaining - (t2 + 1)) fuel k d k3 (by omega) hs1
      have h3 : (match layerSizesGo rng fuel t2 (remaining - min (1 + d) remaining) k3 with
        | none => none
        | some (rest, remFinal, k4) =>
          some (min (1 + d) remaining :: rest, remFinal, k4)) = some (sizes, rem2, k2) := h2
      have hpush : min (1 + d) remaining = 1 + d := by omega
      rw [hpush] at h3
      revert h3
      cases hrec : layerSizesGo rng fuel t2 (remaining - (1 + d)) k3 with
      | none => intro h3; exact Option.noConfusion h3
      | some rrk =>
        obtain ⟨rest, remFinal, k4⟩ := rrk
        intro h3
        have h4 : (((1 + d) :: rest, remFinal, k4) : List Nat × Nat × Nat) = (sizes, rem2, k2) :=
          Option.some.inj h3
        have hs2 : sizes = (1 + d) :: rest := (congrArg (fun x => x.1) h4).symm
        have hr2 : rem2 = remFinal := (congrArg (fun x => x.2.1) h4).symm
        subst hs2; subst hr2
        obtain ⟨hl, hge, hsum, hrem1⟩ := ih (remaining - (1 + d)) k3 rest rem2 k4 hrec
          (by omega)
        refine ⟨by simp [hl], ?_, ?_, hrem1⟩
        · intro s hsmem
          rcases List.mem_cons.mp hsmem with he | hmem
          · omega
          · exact hge s hmem
        · rw [List.sum_cons]
          omega

theorem buildLayerSizes_spec (rng : Nat → Nat) (fuel numOps numLayers k : Nat)
    (sizes : List Nat) (k2 : Nat)
    (h : buildLayerSizes rng fuel numOps numLayers k = some (sizes, k2))
    (h1 : 1 ≤ numLayers) (h2 : numLayers ≤ numOps) :
    sizes.length = numLayers ∧ (∀ s ∈ sizes, 1 ≤ s) ∧ sizes.sum = numOps := by
  rw [buildLayerSizes] at h
  revert h
  cases hgo : layerSizesGo rng fuel (numLayers - 1) numOps k with
  | none => intro h; exact Option.noConfusion h
  | some srk =>
    obtain ⟨sz, rem, k3⟩ := srk
    intro h
    have h4 : ((sz ++ [max 1 rem], k3) : List Nat × Nat) = (sizes, k2) := Option.some.inj h
    have hs : sizes = sz ++ [max 1 rem] := (congrArg (fun x => x.1) h4).symm
    subst hs
    obtain ⟨hl, hge, hsum, hrem1⟩ := layerSizesGo_spec rng fuel (numLayers - 1) numOps k
      sz rem k3 hgo (by omega)
    have hmax : max 1 rem = rem := by omega
    rw [hmax]
    refine ⟨by simp [hl]; omega, ?_, ?_⟩
    · intro s hsmem
      rcases List.mem_append.mp hsmem with hmem | hmem
      · exact hge s hmem
      · have : s = rem := by simpa using hmem
        omega
    · rw [List.sum_append, List.sum_cons, List.sum_nil]
      omega

end BuilderLemmas

section BuilderLemmas2

theorem getD_mem_ops (l : List EncOp) (n : Nat) (d : EncOp) (h : n < l.length) :
    l.getD n d ∈ l := by
  rw [List.getD_eq_getElem?_getD, List.getElem?_eq_getElem h]
  exact List.getElem_mem h

theorem buildOpsGo_spec (rng rb : Nat → Nat) (fuel : Nat) (opcodeBytes : List Nat)
    (hne : opcodeBytes ≠ []) : ∀ (n k p : Nat) (layerOps : List EncOp) (k2 p2 : Nat),
    buildOpsGo rng rb fuel opcodeBytes n k p = some (layerOps, k2, p2) →
    layerOps.length = n ∧ ∀ o ∈ layerOps, o.op ∈ opcodeBytes ∧ o.params.length ≤ 7 := by
  intro n
  induction n with
  | zero =>
    intro k p layerOps k2 p2 h
    have h3 : (([], k, p) : List EncOp × Nat × Nat) = (layerOps, k2, p2) := Option.some.inj h
    have hs : layerOps = [] := (congrArg (fun x => x.1) h3).symm
    subst hs
    exact ⟨rfl, by simp⟩
  | succ n2 ih =>
    intro k p layerOps k2 p2 h
    have h2 : (match secureRandomInt rng opcodeBytes.length k fuel with
      | none => none
      | some (idx, k3) =>
        match secureRandomInt rng 8 k3 fuel with
        | none => none
        | some (paramLen, k4) =>
          match buildOpsGo rng rb fuel opcodeBytes n2 k4 (p + paramLen) with
          | none => none
          | some (rest, k5, p3) =>
            some (⟨opcodeBytes.getD idx 0,
              (List.range paramLen).map (fun i => rb (p + i) % 256)⟩ :: rest, k5, p3)) =
        some (layerOps, k2, p2) := h
    revert h2
    cases hs1 : secureRandomInt rng opcodeBytes.length k fuel with
    | none => intro h2; exact Option.noConfusion h2
    | some ik =>
      obtain ⟨idx, k3⟩ := ik
      intro h2
      have hidx : idx < opcodeBytes.length :=
        secureRandomInt_lt rng opcodeBytes.length fuel k idx k3
          (List.length_pos.mpr hne) hs1
      have h3 : (match secureRandomInt rng 8 k3 fuel with
        | none => none
        | some (paramLen, k4) =>
          match buildOpsGo rng rb fuel opcodeBytes n2 k4 (p + paramLen) with
          | none => none
          | some (rest, k5, p3) =>
            some (⟨opcodeBytes.getD idx 0,
              (List.range paramLen).map (fun i => rb (p + i) % 256)⟩ :: rest, k5, p3)) =
          some (layerOps, k2, p2) := h2
      revert h3
      cases hs2 : secureRandomInt rng 8 k3 fuel with
      | none => intro h3; exact Option.noConfusion h3
      | some pk =>
        obtain ⟨paramLen, k4⟩ := pk
        intro h3
        have hplen : paramLen < 8 := secureRandomInt_lt rng 8 fuel k3 paramLen k4
          (by omega) hs2
        have h4 : (match buildOpsGo rng rb fuel opcodeBytes n2 k4 (p + paramLen) with
          | none => none
          | some (rest, k5, p3) =>
            some (⟨opcodeBytes.getD idx 0,
              (List.range paramLen).map (fun i => rb (p + i) % 256)⟩ :: rest, k5, p3)) =
            some (layerOps, k2, p2) := h3
        revert h4
        cases hrec : buildOpsGo rng rb fuel opcodeBytes n2 k4 (p + paramLen) with
        | none => intro h4; exact Option.noConfusion h4
        | some rk =>
          obtain ⟨rest, k5, p3⟩ := rk
          intro h4
          have h5 : ((⟨opcodeBytes.getD idx 0,
              (List.range paramLen).map (fun i => rb (p + i) % 256)⟩ :: rest, k5, p3) :
              List EncOp × Nat × Nat) = (layerOps, k2, p2) := Option.some.inj h4
          have hs : layerOps = ⟨opcodeBytes.getD idx 0,
              (List.range paramLen).map (fun i => rb (p + i) % 256)⟩ :: rest :=
            (congrArg (fun x => x.1) h5).symm
          subst hs
          obtain ⟨hl, hprop⟩ := ih k4 (p + paramLen) rest k5 p3 hrec
          refine ⟨by simp [hl], ?_⟩
          intro o ho
          rcases List.mem_cons.mp ho with he | hmem
          · subst he
            exact ⟨getD_mem_nat opcodeBytes idx 0 hidx, by simp; omega⟩
          · exact hprop o hmem

theorem listSwapOps_length (l : List EncOp) (i j : Nat) :
    (listSwapOps l i j).length = l.length := by
  unfold listSwapOps
  by_cases h : i < l.length ∧ j < l.length
  · rw [if_pos h]
    simp
  · rw [if_neg h]

theorem listSwapOps_mem (l : List EncOp) (i j : Nat) (x : EncOp)
    (hx : x ∈ listSwapOps l i j) : x ∈ l := by
  unfold listSwapOps at hx
  by_cases h : i < l.length ∧ j < l.length
  · rw [if_pos h] at hx
    rcases List.mem_or_eq_of_mem_set hx with hx2 | he
    · rcases List.mem_or_eq_of_mem_set hx2 with hx3 | he2
      · exact hx3
      · subst he2
        exact getD_mem_ops l j _ h.2
    · subst he
      exact getD_mem_ops l i _ h.1
  · rw [if_neg h] at hx
    exact hx

theorem shuffleOpsGo_mem (rng : Nat → Nat) : ∀ (i : Nat) (arr : List EncOp) (k : Nat)
    (x : EncOp), x ∈ (shuffleOpsGo rng i arr k).1 → x ∈ arr := by
  intro i
  induction i with
  | zero => intro arr k x hx; exact hx
  | succ i2 ih =>
    intro arr k x hx
    exact listSwapOps_mem arr (i2 + 1) (rng k % 4294967296 % (i2 + 2)) x
      (ih (listSwapOps arr (i2 + 1) (rng k % 4294967296 % (i2 + 2))) (k + 1) x hx)

theorem shuffleOpsGo_length (rng : Nat → Nat) : ∀ (i : Nat) (arr : List EncOp) (k : Nat),
    (shuffleOpsGo rng i arr k).1.length = arr.length := by
  intro i
  induction i with
  | zero => intro arr k; rfl
  | succ i2 ih =>
    intro arr k
    rw [show (shuffleOpsGo rng (i2 + 1) arr k).1 =
      (shuffleOpsGo rng i2 (listSwapOps arr (i2 + 1) (rng k % 4294967296 % (i2 + 2)))
        (k + 1)).1 from rfl]
    rw [ih, listSwapOps_length]

theorem shuffleOps_mem (rng : Nat → Nat) (arr : List EncOp) (k : Nat) (x : EncOp)
    (hx : x ∈ (shuffleOps rng arr k).1) : x ∈ arr := by
  rw [shuffleOps] at hx
  revert hx
  cases hl : arr.length with
  | zero => intro hx; exact hx
  | succ n => intro hx; exact shuffleOpsGo_mem rng n arr k x hx

theorem shuffleOps_length (rng : Nat → Nat) (arr : List EncOp) (k : Nat) :
    (shuffleOps rng arr k).1.length = arr.length := by
  rw [shuffleOps]
  cases hl : arr.length with
  | zero => exact hl
  | succ n => exact (shuffleOpsGo_length rng n arr k).trans hl

theorem buildLayersGo_spec (rng rb : Nat → Nat) (fuel : Nat) (opcodeBytes : List Nat)
    (hne : opcodeBytes ≠ []) : ∀ (sizes : List Nat) (k p : Nat) (ops : List EncOp)
    (k2 p2 : Nat),
    buildLayersGo rng rb fuel opcodeBytes sizes k p = some (ops, k2, p2) →
    ops.length = sizes.sum ∧ ∀ o ∈ ops, o.op ∈ opcodeBytes ∧ o.params.length ≤ 7 := by
  intro sizes
  induction sizes with
  | nil =>
    intro k p ops k2 p2 h
    have h3 : (([], k, p) : List EncOp × Nat × Nat) = (ops, k2, p2) := Option.some.inj h
    have hs : ops = [] := (congrArg (fun x => x.1) h3).symm
    subst hs
    exact ⟨by simp, by simp⟩
  | cons s rest ih =>
    intro k p ops k2 p2 h
    have h2 : (match buildOpsGo rng rb fuel opcodeBytes s k p with
      | none => none
      | some (layerOps, k3, p3) =>
        match buildLayersGo rng rb fuel opcodeBytes rest
            (shuffleOps rng layerOps k3).2 p3 with
        | none => none
        | some (ops2, k4, p4) =>
          some ((shuffleOps rng layerOps k3).1 ++ ops2, k4, p4)) = some (ops, k2, p2) := h
    revert h2
    cases hs1 : buildOpsGo rng rb fuel opcodeBytes s k p with
    | none => intro h2; exact Option.noConfusion h2
    | some lk =>
      obtain ⟨layerOps, k3, p3⟩ := lk
      intro h2
      have h3 : (match buildLayersGo rng rb fuel opcodeBytes rest
            (shuffleOps rng layerOps k3).2 p3 with
        | none => none
        | some (ops2, k4, p4) =>
          some ((shuffleOps rng layerOps k3).1 ++ ops2, k4, p4)) = some (ops, k2, p2) := h2
      revert h3
      cases hs2 : buildLayersGo rng rb fuel opcodeBytes rest
          (shuffleOps rng layerOps k3).2 p3 with
      | none => intro h3; exact Option.noConfusion h3
      | some ok =>
        obtain ⟨ops2, k4, p4⟩ := ok
        intro h3
        have h5 : (((shuffleOps rng layerOps k3).1 ++ ops2, k4, p4) :
            List EncOp × Nat × Nat) = (ops, k2, p2) := Option.some.inj h3
        have hs : ops = (shuffleOps rng layerOps k3).1 ++ ops2 :=
          (congrArg (fun x => x.1) h5).symm
        subst hs
        obtain ⟨hl1, hprop1⟩ := buildOpsGo_spec rng rb fuel opcodeBytes hne s k p
          layerOps k3 p3 hs1
        obtain ⟨hl2, hprop2⟩ := ih (shuffleOps rng layerOps k3).2 p3 ops2 k4 p4 hs2
        refine ⟨?_, ?_⟩
        · rw [List.length_append, shuffleOps_length, hl1, hl2, List.sum_cons]
        · intro o ho
          rcases List.mem_append.mp ho with hmem | hmem
          · exact hprop1 o (shuffleOps_mem rng layerOps k3 o hmem)
          · exact hprop2 o hmem

end BuilderLemmas2

section AdmissibleLemmas

theorem admissible_spec (m : Manifest) (hlen : m.opcode_action.length = 256) (a : Nat)
    (ha : admissible m a = true) :
    a ≤ 255 ∧ m.opcode_action.getD a 255 ≠ 255 ∧ m.opcode_action.getD a 255 ≠ 18 ∧
    m.opcode_action.getD a 255 ≠ 7 ∧ m.opcode_action.getD a 255 ≠ 8 := by
  unfold admissible at ha
  by_cases h255 : 255 < a
  · rw [if_pos h255] at ha
    exact absurd ha (by simp)
  · rw [if_neg h255] at ha
    have hlt : a < m.opcode_action.length := by omega
    rw [List.getElem?_eq_getElem hlt] at ha
    have ha2 : decide (m.opcode_action.get ⟨a, hlt⟩ ≠ 255 ∧
        m.opcode_action.get ⟨a, hlt⟩ ≠ 18 ∧ m.opcode_action.get ⟨a, hlt⟩ ≠ 7 ∧
        m.opcode_action.get ⟨a, hlt⟩ ≠ 8) = true := ha
    rw [decide_eq_true_eq] at ha2
    rw [getD_eq_get_nat m.opcode_action a 255 hlt]
    exact ⟨by omega, ha2.1, ha2.2.1, ha2.2.2.1, ha2.2.2.2⟩

theorem admissible_of_getD (m : Manifest) (hlen : m.opcode_action.length = 256) (a : Nat)
    (h255 : a ≤ 255) (h1 : m.opcode_action.getD a 255 ≠ 255)
    (h2 : m.opcode_action.getD a 255 ≠ 18) (h3 : m.opcode_action.getD a 255 ≠ 7)
    (h4 : m.opcode_action.getD a 255 ≠ 8) : admissible m a = true := by
  unfold admissible
  rw [if_neg (by omega)]
  have hlt : a < m.opcode_action.length := by omega
  rw [List.getElem?_eq_getElem hlt]
  show decide (m.opcode_action.get ⟨a, hlt⟩ ≠ 255 ∧ m.opcode_action.get ⟨a, hlt⟩ ≠ 18 ∧
    m.opcode_action.get ⟨a, hlt⟩ ≠ 7 ∧ m.opcode_action.get ⟨a, hlt⟩ ≠ 8) = true
  rw [decide_eq_true_eq]
  rw [getD_eq_get_nat m.opcode_action a 255 hlt] at h1 h2 h3 h4
  exact ⟨h1, h2, h3, h4⟩

end AdmissibleLemmas

/-- C6. Against any manifest with a 256-entry opcode table in which all 19
actions are assigned (so some opcode maps to action 0), every operation
list returned by the builder uses only opcodes whose action index is
assigned and none of 255, 18, 7, 8; the list has `numOps ∈ [8, 15]`
operations, partitioned into `numLayers ∈ [2, 5]` layers each of size at
least 1 summing to `numOps`; and every params list has length at most 7. -/
theorem C6_builder_invariants (rng rb : Nat → Nat) (fuel : Nat) (m : Manifest)
    (mappingKeys : List Nat) (k p : Nat) (ops : List EncOp) (numOps numLayers : Nat)
    (sizes : List Nat)
    (hlen : m.opcode_action.length = 256)
    (hass : ∀ i, i < 19 → ∃ op, op ≤ 255 ∧ op ∈ mappingKeys ∧
      m.opcode_action.getD op 255 = i)
    (hbuild : buildOperations rng rb fuel m mappingKeys k p =
      some (ops, numOps, numLayers, sizes)) :
    (∀ o ∈ ops, o.op ≤ 255 ∧
      m.opcode_action.getD o.op 255 ≠ 255 ∧ m.opcode_action.getD o.op 255 ≠ 18 ∧
      m.opcode_action.getD o.op 255 ≠ 7 ∧ m.opcode_action.getD o.op 255 ≠ 8) ∧
    ops.length = numOps ∧ 8 ≤ numOps ∧ numOps ≤ 15 ∧
    sizes.length = numLayers ∧ 2 ≤ numLayers ∧ numLayers ≤ 5 ∧
    (∀ s ∈ sizes, 1 ≤ s) ∧ sizes.sum = numOps ∧
    (∀ o ∈ ops, o.params.length ≤ 7) := by
  obtain ⟨a0, ha0le, ha0mem, ha0idx⟩ := hass 0 (by omega)
  have ha0adm : admissible m a0 = true :=
    admissible_of_getD m hlen a0 ha0le (by omega) (by omega) (by omega) (by omega)
  have hfmem : a0 ∈ mappingKeys.filter (admissible m) :=
    List.mem_filter.mpr ⟨ha0mem, ha0adm⟩
  have hfne : mappingKeys.filter (admissible m) ≠ [] := List.ne_nil_of_mem hfmem
  have hflen : (mappingKeys.filter (admissible m)).length ≠ 0 := by
    have := List.length_pos.mpr hfne
    omega
  have hb2 : (match secureRandomInt rng 8 k fuel with
    | none => none
    | some (d1, k1) =>
      match secureRandomInt rng 4 k1 fuel with
      | none => none
      | some (d2, k2) =>
        match buildLayerSizes rng fuel (8 + d1) (2 + d2) k2 with
        | none => none
        | some (sizes2, k3) =>
          match buildLayersGo rng rb fuel
              (if (mappingKeys.filter (admissible m)).length = 0 then mappingKeys
               else mappingKeys.filter (admissible m)) sizes2 k3 p with
          | none => none
          | some (ops2, _, _) => some (ops2, 8 + d1, 2 + d2, sizes2)) =
      some (ops, numOps, numLayers, sizes) := hbuild
  rw [if_neg hflen] at hb2
  revert hb2
  cases hs1 : secureRandomInt rng 8 k fuel with
  | none => intro hb2; exact Option.noConfusion hb2
  | some dk1 =>
    obtain ⟨d1, k1⟩ := dk1
    intro hb2
    have hd1 : d1 < 8 := secureRandomInt_lt rng 8 fuel k d1 k1 (by omega) hs1
    have hb3 : (match secureRandomInt rng 4 k1 fuel with
      | none => none
      | some (d2, k2) =>
        match buildLayerSizes rng fuel (8 + d1) (2 + d2) k2 with
        | none => none
        | some (sizes2, k3) =>
          match buildLayersGo rng rb fuel (mappingKeys.filter (admissible m))
              sizes2 k3 p with
          | none => none
          | some (ops2, _, _) => some (ops2, 8 + d1, 2 + d2, sizes2)) =
        some (ops, numOps, numLayers, sizes) := hb2
    revert hb3
    cases hs2 : secureRandomInt rng 4 k1 fuel with
    | none => intro hb3; exact Option.noConfusion hb3
    | some dk2 =>
      obtain ⟨d2, k2⟩ := dk2
      intro hb3
      have hd2 : d2 < 4 := secureRandomInt_lt rng 4 fuel k1 d2 k2 (by omega) hs2
      have hb4 : (match buildLayerSizes rng fuel (8 + d1) (2 + d2) k2 with
        | none => none
        | some (sizes2, k3) =>
          match buildLayersGo rng rb fuel (mappingKeys.filter (admissible m))
              sizes2 k3 p with
          | none => none
          | some (ops2, _, _) => some (ops2, 8 + d1, 2 + d2, sizes2)) =
          some (ops, numOps, numLayers, sizes) := hb3
      revert hb4
      cases hs3 : buildLayerSizes rng fuel (8 + d1) (2 + d2) k2 with
      | none => intro hb4; exact Option.noConfusion hb4
      | some sk =>
        obtain ⟨sizes2, k3⟩ := sk
        intro hb4
        have hb5 : (match buildLayersGo rng rb fuel (mappingKeys.filter (admissible m))
              sizes2 k3 p with
          | none => none
          | some (ops2, _, _) => some (ops2, 8 + d1, 2 + d2, sizes2)) =
            some (ops, numOps, numLayers, sizes) := hb4
        revert hb5
        cases hs4 : buildLayersGo rng rb fuel (mappingKeys.filter (admissible m))
            sizes2 k3 p with
        | none => intro hb5; exact Option.noConfusion hb5
        | some ok =>
          obtain ⟨ops2, k4, p4⟩ := ok
          intro hb5
          have h5 : ((ops2, 8 + d1, 2 + d2, sizes2) : List EncOp × Nat × Nat × List Nat) =
            (ops, numOps, numLayers, sizes) := Option.some.inj hb5
          have he1 : ops = ops2 := (congrArg (fun x => x.1) h5).symm
          have he2 : numOps = 8 + d1 := (congrArg (fun x => x.2.1) h5).symm
          have he3 : numLayers = 2 + d2 := (congrArg (fun x => x.2.2.1) h5).symm
          have he4 : sizes = sizes2 := (congrArg (fun x => x.2.2.2) h5).symm
          subst he1; subst he2; subst he3; subst he4
          obtain ⟨hsl, hsge, hssum⟩ := buildLayerSizes_spec rng fuel (8 + d1) (2 + d2)
            k2 sizes k3 hs3 (by omega) (by omega)
          obtain ⟨hol, hoprop⟩ := buildLayersGo_spec rng rb fuel
            (mappingKeys.filter (admissible m)) hfne sizes k3 p ops k4 p4 hs4
          refine ⟨?_, ?_, by omega, by omega, hsl, by omega, by omega, hsge, hssum, ?_⟩
          · intro o ho
            have hmemf := (hoprop o ho).1
            have hadm : admissible m o.op = true := (List.mem_filter.mp hmemf).2
            exact admissible_spec m hlen o.op hadm
          · rw [hol, hssum]
          · intro o ho
            exact (hoprop o ho).2

/-- Manifest with the identity opcode table `oaW` (action i at opcode i). -/
def mW6 : Manifest := ⟨List.range 256, List.range 256, oaW⟩

set_option maxHeartbeats 1000000 in
/-- Witness for C6 at all-zero draw streams with fuel 1. -/
theorem C6_builder_invariants_witness :
    buildOperations (fun _ => 0) (fun _ => 0) 1 mW6 (List.range 19) 0 0 =
      some (List.replicate 8 ⟨0, []⟩, 8, 2, [1, 7]) ∧
    ((∀ o ∈ List.replicate 8 (⟨0, []⟩ : EncOp), o.op ≤ 255 ∧
        mW6.opcode_action.getD o.op 255 ≠ 255 ∧ mW6.opcode_action.getD o.op 255 ≠ 18 ∧
        mW6.opcode_action.getD o.op 255 ≠ 7 ∧ mW6.opcode_action.getD o.op 255 ≠ 8) ∧
      (List.replicate 8 (⟨0, []⟩ : EncOp)).length = 8 ∧ 8 ≤ 8 ∧ 8 ≤ 15 ∧
      ([1, 7] : List Nat).length = 2 ∧ 2 ≤ 2 ∧ 2 ≤ 5 ∧
      (∀ s ∈ ([1, 7] : List Nat), 1 ≤ s) ∧ ([1, 7] : List Nat).sum = 8 ∧
      (∀ o ∈ List.replicate 8 (⟨0, []⟩ : EncOp), o.params.length ≤ 7)) := by
  have hoaw : ∀ i, i < 19 → oaW.getD i 255 = i := by decide
  have hb : buildOperations (fun _ => 0) (fun _ => 0) 1 mW6 (List.range 19) 0 0 =
      some (List.replicate 8 ⟨0, []⟩, 8, 2, [1, 7]) := by decide
  exact ⟨hb, C6_builder_invariants (fun _ => 0) (fun _ => 0) 1 mW6 (List.range 19) 0 0
    (List.replicate 8 ⟨0, []⟩) 8 2 [1, 7] (by decide)
    (fun i hi => ⟨i, by omega, List.mem_range.mpr (by omega), hoaw i hi⟩) hb⟩
